import Mathlib

/-!
Verification of the red-black tree utility and the scope/overload model of
the ipr program representation library.

The development shallowly embeds the two storage disciplines of the
`ipr::util::rb_tree` namespace — the intrusive `chain<Node>` and the owning
`container<T>` — together with the sequence and scope/overload helpers of
`impl.hxx`.  Pointer-linked nodes (`link<Node>`: `left`, `right`, `parent`
arms plus a color tag) are embedded as an inductive binary tree with a color
at each node; the `parent` arm is represented by an explicit path (zipper)
from the root down to the node under consideration, which is exactly the
information the source walks with `z->parent()` chains.  Null pointers are
the `nil` constructor.  `container<T>` owns one payload per node, freshly
allocated by `make_node`; a payload is embedded as a pair `(id, key)` where
`id` is a fresh allocation serial number standing for the node's address, so
payload identity is observable.  Comparators return a C `int`, embedded as
`Int` with the source's `< 0` / `> 0` / `== 0` tests.
-/

namespace rb_tree

/-- Color tag of a tree link, from `link<Node>::Color { Black, Red }`. -/
inductive Color where
  | Black : Color
  | Red : Color
deriving DecidableEq

/-- A red-black tree of payloads `α`: the pointer structure reachable from a
`Node*` through the `left`/`right` arms, with `nil` for the null pointer and
a `Color` per node. -/
inductive Tree (α : Type) where
  | nil : Tree α
  | node (c : Color) (l : Tree α) (a : α) (r : Tree α) : Tree α
deriving DecidableEq

/-- Which arm of the parent the current node hangs from. -/
inductive Dir where
  | L : Dir
  | R : Dir
deriving DecidableEq

/-- One step of a parent chain: the parent node's color and payload, the
sibling subtree, and on which side (`d`) the current node is attached. -/
structure Frame (α : Type) where
  d : Dir
  c : Color
  a : α
  sib : Tree α
deriving DecidableEq

/-- A parent chain from a node up to the root, innermost parent first.  This
is the embedding of the `parent()` arms of `link<Node>`. -/
abbrev Path (α : Type) := List (Frame α)

/-- Reattach a subtree to its parent frame. -/
def plugFrame (t : Tree α) (f : Frame α) : Tree α :=
  match f.d with
  | .L => .node f.c t f.a f.sib
  | .R => .node f.c f.sib f.a t

/-- Rebuild the whole tree from a subtree and its parent chain. -/
def plug (t : Tree α) : Path α → Tree α
  | [] => t
  | f :: p => plug (plugFrame t f) p

/-- Color of the node a (possibly null) pointer designates; the null sentinel
counts as Black, as in every red-black formulation. -/
def colorOf : Tree α → Color
  | .nil => .Black
  | .node c _ _ _ => c

/-- Embeds the final `root->color = Node::Black` store of `fixup_insert`. -/
def blackenRoot : Tree α → Tree α
  | .nil => .nil
  | .node _ l a r => .node .Black l a r

/-- Left rotation about the root of the given subtree, from
`core<Node>::rotate_left`: the right child `y` becomes the parent, `y`'s left
subtree moves to the rotated node's right arm.  Reattachment to the parent
(or the root slot) is performed by the surrounding path context.  When the
right child is null the source would dereference a null pointer; the
embedding returns the tree unchanged (the callers never reach that case). -/
def rotate_left : Tree α → Tree α
  | .node c l a (.node c' rl a' rr) => .node c' (.node c l a rl) a' rr
  | t => t

/-- Right rotation about the root of the given subtree, from
`core<Node>::rotate_right`, mirror image of `rotate_left`. -/
def rotate_right : Tree α → Tree α
  | .node c (.node c' ll a' lr) a r => .node c' ll a' (.node c lr a r)
  | t => t

/-- The null-pointer test `root == 0`. -/
def isNil : Tree α → Bool
  | .nil => true
  | .node _ _ _ _ => false

/-- In-order traversal of the stored payloads. -/
def inorder : Tree α → List α
  | .nil => []
  | .node _ l a r => inorder l ++ a :: inorder r

/-- The descent loop shared by `chain<Node>::insert` and
`container<T>::insert`: walk from `root` comparing the probe against each
node (`g a` is `comp(key, node)`), going left on a negative answer and right
on a positive one, recording each traversed parent link in the path.  The
result is either the parent chain of the empty slot where the probe belongs
(`*slot == 0`, key absent) or the payload of the equal node that was found
together with its parent chain. -/
def descend (g : α → Int) : Tree α → Path α → Path α ⊕ (α × Path α)
  | .nil, p => .inl p
  | .node c l a r, p =>
    if g a < 0 then descend g l (⟨.L, c, a, r⟩ :: p)
    else if 0 < g a then descend g r (⟨.R, c, a, l⟩ :: p)
    else .inr (a, p)

/-- Rebalancing after a raw red insertion, from `core<Node>::fixup_insert`.
The loop `while (z != root && z->parent()->color == Red)` walks the parent
chain: a red uncle means recolor and continue from the grandparent; a black
(or null) uncle means straighten a zig-zag with one rotation, recolor parent
and grandparent, and rotate the grandparent, which ends the loop.  Finally
the root is forced Black.  When the parent is Red but is itself the root the
source would dereference the null grandparent; that state is unreachable
(the root is Black on entry), and the embedding exits the loop there. -/
def fixup_insert (z : Tree α) : Path α → Tree α
  | [] => blackenRoot z
  | pf :: rest =>
    match pf.c with
    | .Black => blackenRoot (plug z (pf :: rest))
    | .Red =>
      match rest with
      | [] => blackenRoot (plug z (pf :: rest))
      | gf :: rest2 =>
        match gf.d with
        | .L =>
          -- the parent hangs on the grandparent's left; the uncle is gf.sib
          match gf.sib with
          | .node .Red yl ya yr =>
            fixup_insert
              (.node .Red (plugFrame z { pf with c := .Black }) gf.a
                (.node .Black yl ya yr)) rest2
          | y =>
            match pf.d with
            | .R =>
              blackenRoot (plug
                (rotate_right (.node .Red
                  (blackenRoot (rotate_left (plugFrame z pf))) gf.a y)) rest2)
            | .L =>
              blackenRoot (plug
                (rotate_right (.node .Red
                  (.node .Black z pf.a pf.sib) gf.a y)) rest2)
        | .R =>
          -- mirror image: the parent hangs on the grandparent's right
          match gf.sib with
          | .node .Red yl ya yr =>
            fixup_insert
              (.node .Red (.node .Black yl ya yr) gf.a
                (plugFrame z { pf with c := .Black })) rest2
          | y =>
            match pf.d with
            | .L =>
              blackenRoot (plug
                (rotate_left (.node .Red y gf.a
                  (blackenRoot (rotate_right (plugFrame z pf))))) rest2)
            | .R =>
              blackenRoot (plug
                (rotate_left (.node .Red y gf.a
                  (.node .Black pf.sib pf.a z))) rest2)

/-- The search loop shared by `chain<Node>::find` and `container<T>::find`:
descend comparing `g a = comp(key, node)`; a null result is "not found". -/
def findT (g : α → Int) : Tree α → Option α
  | .nil => none
  | .node _ l a r =>
    if g a < 0 then findT g l
    else if 0 < g a then findT g r
    else some a

/-- State of an intrusive `chain<Node>` (inherited from `core<Node>`): the
root pointer and the running count. -/
structure ChainState (α : Type) where
  root : Tree α
  count : Nat
deriving DecidableEq

/-- A fresh `core()`: null root, zero count. -/
def chainEmpty : ChainState α := ⟨.nil, 0⟩

/-- Embeds `chain<Node>::insert(z, comp)`.  The caller's node `z` enters with
null arms (the `link()` constructor zero-initializes them) and is embedded by
its payload value.  After the descent: an empty tree takes `z` as the Black
root with no fixup; an empty slot links `z` there, colors it Red and
rebalances; if an equal node was found nothing is linked.  The count is
incremented and `z` is returned in every case — including the found case,
where the source returns the argument `z`, not the node it found. -/
def chainInsert (cmpE : α → α → Int) (t : ChainState α) (z : α) :
    ChainState α × α :=
  match descend (fun a => cmpE z a) t.root [] with
  | .inr _ => ({ t with count := t.count + 1 }, z)
  | .inl p =>
    if isNil t.root then
      ({ root := .node .Black .nil z .nil, count := t.count + 1 }, z)
    else
      ({ root := fixup_insert (.node .Red .nil z .nil) p,
         count := t.count + 1 }, z)

/-- Embeds `chain<Node>::find(key, comp)`. -/
def chainFind (cmp : κ → α → Int) (t : ChainState α) (k : κ) : Option α :=
  findT (fun a => cmp k a) t.root

/-- State of an owning `container<T>`: the root of the payload tree, the next
allocation serial number (standing for the address `make_node` would return),
and the running count. -/
structure ContState (κ : Type) where
  root : Tree (Nat × κ)
  nextId : Nat
  count : Nat
deriving DecidableEq

/-- A fresh `container<T>`. -/
def contEmpty : ContState κ := ⟨.nil, 0, 0⟩

/-- Embeds `container<T>::insert(key, comp)`.  An empty tree allocates the
payload as the Black root and bumps the count.  Otherwise the descent either
finds an equal payload — which is returned with no allocation, no relinking
and no count change — or reaches an empty slot, where a fresh payload
(`make_node(key)`, embedded as `(nextId, key)`) is linked Red, the count is
bumped and the tree rebalanced. -/
def contInsert (cmp : κ → κ → Int) (c : ContState κ) (k : κ) :
    ContState κ × (Nat × κ) :=
  if isNil c.root then
    ({ root := .node .Black .nil (c.nextId, k) .nil,
       nextId := c.nextId + 1, count := c.count + 1 }, (c.nextId, k))
  else
    match descend (fun x => cmp k x.2) c.root [] with
    | .inr (w, _) => (c, w)
    | .inl p =>
      ({ root := fixup_insert (.node .Red .nil (c.nextId, k) .nil) p,
         nextId := c.nextId + 1, count := c.count + 1 }, (c.nextId, k))

/-- Embeds `container<T>::find(key, comp)`: returns the payload of the equal
node or null. -/
def contFind (cmp : κ → κ → Int) (c : ContState κ) (k : κ) :
    Option (Nat × κ) :=
  findT (fun x => cmp k x.2) c.root

/-- Insert a list of keys left to right into an owning container. -/
def contInsertMany (cmp : κ → κ → Int) (c : ContState κ) (ks : List κ) :
    ContState κ :=
  ks.foldl (fun s k => (contInsert cmp s k).1) c

/-- Insert a list of nodes left to right into an intrusive chain. -/
def chainInsertMany (cmpE : α → α → Int) (t : ChainState α) (zs : List α) :
    ChainState α :=
  zs.foldl (fun s z => (chainInsert cmpE s z).1) t

/-- The integer-identifier comparator of `impl.hxx` (`impl::compare`):
`lhs < rhs ? -1 : (lhs > rhs ? 1 : 0)`. -/
def intCmp (lhs rhs : Int) : Int :=
  if lhs < rhs then -1 else if lhs > rhs then 1 else 0

/-! ### In-order traversal lemmas

Rotations and recolorings do not change the in-order sequence of payloads,
so the whole of `fixup_insert` is in-order preserving.  The traversal of a
plugged tree splits into a left part and a right part contributed by the
parent chain alone. -/

/-- Payloads contributed by a parent chain to the left of the hole. -/
def plugL : Path α → List α
  | [] => []
  | f :: p =>
    match f.d with
    | .L => plugL p
    | .R => plugL p ++ (inorder f.sib ++ [f.a])

/-- Payloads contributed by a parent chain to the right of the hole. -/
def plugR : Path α → List α
  | [] => []
  | f :: p =>
    match f.d with
    | .L => (f.a :: inorder f.sib) ++ plugR p
    | .R => plugR p

theorem inorder_blackenRoot (t : Tree α) :
    inorder (blackenRoot t) = inorder t := by
  cases t <;> simp [blackenRoot, inorder]

theorem colorOf_blackenRoot (t : Tree α) :
    colorOf (blackenRoot t) = .Black := by
  cases t <;> simp [blackenRoot, colorOf]

theorem inorder_rotate_left (t : Tree α) :
    inorder (rotate_left t) = inorder t := by
  cases t with
  | nil => rfl
  | node c l a r =>
    cases r with
    | nil => rfl
    | node c' rl a' rr => simp [rotate_left, inorder]

theorem inorder_rotate_right (t : Tree α) :
    inorder (rotate_right t) = inorder t := by
  cases t with
  | nil => rfl
  | node c l a r =>
    cases l with
    | nil => rfl
    | node c' ll a' lr => simp [rotate_right, inorder]

theorem inorder_plugFrame (t : Tree α) (f : Frame α) :
    inorder (plugFrame t f) =
      match f.d with
      | .L => inorder t ++ f.a :: inorder f.sib
      | .R => inorder f.sib ++ f.a :: inorder t := by
  cases f with
  | mk d c a s => cases d <;> simp [plugFrame, inorder]

theorem inorder_plug (t : Tree α) (p : Path α) :
    inorder (plug t p) = plugL p ++ inorder t ++ plugR p := by
  induction p generalizing t with
  | nil => simp [plug, plugL, plugR]
  | cons f p ih =>
    cases f with
    | mk d c a s =>
      cases d <;>
        simp [plug, plugFrame, plugL, plugR, ih, inorder, List.append_assoc]

theorem inorder_fixup (z : Tree α) (p : Path α) :
    inorder (fixup_insert z p) = inorder (plug z p) := by
  induction z, p using fixup_insert.induct with
  | case1 z => simp [fixup_insert, plug, inorder_blackenRoot]
  | case2 z f p hfc =>
    obtain ⟨fd, fc, fa, fs⟩ := f
    obtain rfl : fc = Color.Black := hfc
    simp [fixup_insert, inorder_blackenRoot]
  | case3 z f hfc =>
    obtain ⟨fd, fc, fa, fs⟩ := f
    obtain rfl : fc = Color.Red := hfc
    simp [fixup_insert, inorder_blackenRoot]
  | case4 z f hfc gf rest2 hgd yl ya yr hy ih =>
    obtain ⟨fd, fc, fa, fs⟩ := f
    obtain ⟨gd, gc, ga, gs⟩ := gf
    obtain rfl : fc = Color.Red := hfc
    obtain rfl : gd = Dir.L := hgd
    obtain rfl : gs = Tree.node Color.Red yl ya yr := hy
    cases fd <;>
      simp_all [fixup_insert, plug, plugFrame, inorder, inorder_plug,
        List.append_assoc]
  | case5 z f hfc gf rest2 hgd hfd hy =>
    obtain ⟨fd, fc, fa, fs⟩ := f
    obtain ⟨gd, gc, ga, gs⟩ := gf
    obtain rfl : fc = Color.Red := hfc
    obtain rfl : gd = Dir.L := hgd
    obtain rfl : fd = Dir.R := hfd
    cases gs <;>
      simp_all [fixup_insert, plug, plugFrame, inorder, inorder_plug,
        inorder_blackenRoot, inorder_rotate_left, inorder_rotate_right,
        List.append_assoc]
  | case6 z f hfc gf rest2 hgd hfd hy =>
    obtain ⟨fd, fc, fa, fs⟩ := f
    obtain ⟨gd, gc, ga, gs⟩ := gf
    obtain rfl : fc = Color.Red := hfc
    obtain rfl : gd = Dir.L := hgd
    obtain rfl : fd = Dir.L := hfd
    cases gs <;>
      simp_all [fixup_insert, plug, plugFrame, inorder, inorder_plug,
        inorder_blackenRoot, inorder_rotate_left, inorder_rotate_right,
        List.append_assoc]
  | case7 z f hfc gf rest2 hgd yl ya yr hy ih =>
    obtain ⟨fd, fc, fa, fs⟩ := f
    obtain ⟨gd, gc, ga, gs⟩ := gf
    obtain rfl : fc = Color.Red := hfc
    obtain rfl : gd = Dir.R := hgd
    obtain rfl : gs = Tree.node Color.Red yl ya yr := hy
    cases fd <;>
      simp_all [fixup_insert, plug, plugFrame, inorder, inorder_plug,
        List.append_assoc]
  | case8 z f hfc gf rest2 hgd hfd hy =>
    obtain ⟨fd, fc, fa, fs⟩ := f
    obtain ⟨gd, gc, ga, gs⟩ := gf
    obtain rfl : fc = Color.Red := hfc
    obtain rfl : gd = Dir.R := hgd
    obtain rfl : fd = Dir.L := hfd
    cases gs <;>
      simp_all [fixup_insert, plug, plugFrame, inorder, inorder_plug,
        inorder_blackenRoot, inorder_rotate_left, inorder_rotate_right,
        List.append_assoc]
  | case9 z f hfc gf rest2 hgd hfd hy =>
    obtain ⟨fd, fc, fa, fs⟩ := f
    obtain ⟨gd, gc, ga, gs⟩ := gf
    obtain rfl : fc = Color.Red := hfc
    obtain rfl : gd = Dir.R := hgd
    obtain rfl : fd = Dir.R := hfd
    cases gs <;>
      simp_all [fixup_insert, plug, plugFrame, inorder, inorder_plug,
        inorder_blackenRoot, inorder_rotate_left, inorder_rotate_right,
        List.append_assoc]

/-! ### The red-black balance invariant

`Valid t n` asserts the two color invariants below a node: no Red node has a
Red child, and every path from the node to a sentinel crosses exactly `n`
Black nodes.  `PV p n` is the matching invariant for a parent chain with a
hole of black-height `n`: sibling subtrees are balanced, a Red parent has a
Black sibling and a Black parent of its own, and each Black parent raises
the required black height by one. -/

/-- Balance invariant below a node: black height `n`, no Red-Red edge. -/
def Valid : Tree α → Nat → Prop
  | .nil, n => n = 0
  | .node .Red l _ r, n =>
    colorOf l = .Black ∧ colorOf r = .Black ∧ Valid l n ∧ Valid r n
  | .node .Black _ _ _, 0 => False
  | .node .Black l _ r, n+1 => Valid l n ∧ Valid r n

/-- Color of the innermost parent of a chain (Black for the empty chain). -/
def pathColor : Path α → Color
  | [] => .Black
  | f :: _ => f.c

/-- Balance invariant of a parent chain whose hole has black-height `n`. -/
def PV : Path α → Nat → Prop
  | [], _ => True
  | f :: rest, n =>
    Valid f.sib n ∧
      match f.c with
      | .Black => PV rest (n+1)
      | .Red => colorOf f.sib = .Black ∧ pathColor rest = .Black ∧ PV rest n

theorem valid_blackenRoot {t : Tree α} {n : Nat} (h : Valid t n) :
    ∃ m, Valid (blackenRoot t) m := by
  cases t with
  | nil => exact ⟨0, rfl⟩
  | node c l a r =>
    cases c with
    | Black => exact ⟨n, h⟩
    | Red => exact ⟨n+1, ⟨h.2.2.1, h.2.2.2⟩⟩

theorem colorOf_plugFrame (t : Tree α) (f : Frame α) :
    colorOf (plugFrame t f) = f.c := by
  cases f with
  | mk d c a s => cases d <;> simp [plugFrame, colorOf]

/-- Filling the hole of a balanced chain with a balanced tree whose root is
Black — or whose innermost parent is Black — gives a balanced tree. -/
theorem valid_plug {t : Tree α} {n : Nat} (p : Path α)
    (ht : Valid t n) (hc : colorOf t = .Red → pathColor p = .Black)
    (hp : PV p n) : ∃ m, Valid (plug t p) m := by
  induction p generalizing t n with
  | nil => exact ⟨n, ht⟩
  | cons f rest ih =>
    obtain ⟨d, c, a, s⟩ := f
    obtain ⟨hsib, hrest⟩ := hp
    cases c with
    | Black =>
      have ht' : Valid (plugFrame t ⟨d, Color.Black, a, s⟩) (n+1) := by
        cases d <;> simp_all [plugFrame, Valid]
      exact ih ht'
        (by rw [colorOf_plugFrame]; intro h; cases h) hrest
    | Red =>
      obtain ⟨hsc, hpc, hrest⟩ := hrest
      have htc : colorOf t = Color.Black := by
        cases htc : colorOf t with
        | Black => rfl
        | Red => exact absurd (hc htc) (by simp [pathColor])
      have ht' : Valid (plugFrame t ⟨d, Color.Red, a, s⟩) n := by
        cases d <;> simp_all [plugFrame, Valid]
      exact ih ht' (by rw [colorOf_plugFrame]; intro; exact hpc) hrest

theorem valid_fixup :
    ∀ (z : Tree α) (p : Path α) (n : Nat), Valid z n → colorOf z = .Red →
      PV p n →
      ∃ m, Valid (fixup_insert z p) m ∧
        colorOf (fixup_insert z p) = .Black := by
  intro z p
  induction z, p using fixup_insert.induct with
  | case1 z =>
    intro n hz _ _
    obtain ⟨m, hm⟩ := valid_blackenRoot hz
    exact ⟨m, hm, colorOf_blackenRoot _⟩
  | case2 z f p hfc =>
    intro n hz hzc hp
    obtain ⟨fd, fc, fa, fs⟩ := f
    obtain rfl : fc = Color.Black := hfc
    obtain ⟨m, hm⟩ :=
      valid_plug (⟨fd, Color.Black, fa, fs⟩ :: p) hz (fun _ => rfl) hp
    obtain ⟨m', hm'⟩ := valid_blackenRoot hm
    refine ⟨m', ?_, ?_⟩
    · simpa [fixup_insert] using hm'
    · simp [fixup_insert, colorOf_blackenRoot]
  | case3 z f hfc =>
    intro n hz hzc hp
    obtain ⟨fd, fc, fa, fs⟩ := f
    obtain rfl : fc = Color.Red := hfc
    obtain ⟨hsib, hsc, hpc, hpv⟩ := hp
    refine ⟨n+1, ?_, ?_⟩
    · cases fd <;> simp_all [fixup_insert, plug, plugFrame, blackenRoot, Valid]
    · cases fd <;> simp [fixup_insert, plug, plugFrame, blackenRoot, colorOf]
  | case4 z f hfc gf rest2 hgd yl ya yr hy ih =>
    intro n hz hzc hp
    obtain ⟨fd, fc, fa, fs⟩ := f
    obtain ⟨gd, gc, ga, gs⟩ := gf
    obtain rfl : fc = Color.Red := hfc
    obtain rfl : gd = Dir.L := hgd
    obtain rfl : gs = Tree.node Color.Red yl ya yr := hy
    obtain ⟨hsib, hsc, hpc, hpv⟩ := hp
    obtain rfl : gc = Color.Black := hpc
    obtain ⟨hgsib, hpv2⟩ := hpv
    have hz' : Valid (Tree.node Color.Red
        (plugFrame z ⟨fd, Color.Black, fa, fs⟩) ga
        (Tree.node Color.Black yl ya yr)) (n+1) := by
      refine ⟨by rw [colorOf_plugFrame], rfl, ?_, ?_⟩
      · cases fd <;> simp_all [plugFrame, Valid]
      · exact ⟨hgsib.2.2.1, hgsib.2.2.2⟩
    exact ih (n+1) hz' rfl hpv2
  | case5 z f hfc gf rest2 hgd hfd hy =>
    intro n hz hzc hp
    obtain ⟨fd, fc, fa, fs⟩ := f
    obtain ⟨gd, gc, ga, gs⟩ := gf
    obtain rfl : fc = Color.Red := hfc
    obtain rfl : gd = Dir.L := hgd
    obtain rfl : fd = Dir.R := hfd
    obtain ⟨hsib, hsc, hpc, hpv⟩ := hp
    obtain rfl : gc = Color.Black := hpc
    obtain ⟨hgsib, hpv2⟩ := hpv
    cases z with
    | nil => exact absurd hzc (by simp [colorOf])
    | node zc zl za zr =>
    obtain rfl : zc = Color.Red := hzc
    have hgsc : colorOf gs = Color.Black := by
      cases gs with
      | nil => rfl
      | node c l2 a2 r2 =>
        cases c with
        | Black => rfl
        | Red => exact (hy l2 a2 r2 rfl).elim
    have heq : fixup_insert (Tree.node Color.Red zl za zr)
        (⟨Dir.R, Color.Red, fa, fs⟩ :: ⟨Dir.L, Color.Black, ga, gs⟩ :: rest2)
        = blackenRoot (plug (rotate_right (Tree.node Color.Red
            (blackenRoot (rotate_left (plugFrame
              (Tree.node Color.Red zl za zr) ⟨Dir.R, Color.Red, fa, fs⟩)))
            ga gs)) rest2) := by
      cases gs with
      | nil => rfl
      | node c l2 a2 r2 =>
        cases c with
        | Black => rfl
        | Red => exact (hy l2 a2 r2 rfl).elim
    rw [heq]
    have hT : Valid (rotate_right (Tree.node Color.Red
        (blackenRoot (rotate_left (plugFrame
          (Tree.node Color.Red zl za zr) ⟨Dir.R, Color.Red, fa, fs⟩))) ga gs))
        (n+1) := by
      simp_all [plugFrame, rotate_left, rotate_right, blackenRoot, Valid]
    obtain ⟨m, hm⟩ := valid_plug rest2 hT
      (by intro h
          simp [plugFrame, rotate_left, rotate_right, blackenRoot,
            colorOf] at h) hpv2
    obtain ⟨m', hm'⟩ := valid_blackenRoot hm
    exact ⟨m', hm', colorOf_blackenRoot _⟩
  | case6 z f hfc gf rest2 hgd hfd hy =>
    intro n hz hzc hp
    obtain ⟨fd, fc, fa, fs⟩ := f
    obtain ⟨gd, gc, ga, gs⟩ := gf
    obtain rfl : fc = Color.Red := hfc
    obtain rfl : gd = Dir.L := hgd
    obtain rfl : fd = Dir.L := hfd
    obtain ⟨hsib, hsc, hpc, hpv⟩ := hp
    obtain rfl : gc = Color.Black := hpc
    obtain ⟨hgsib, hpv2⟩ := hpv
    have hgsc : colorOf gs = Color.Black := by
      cases gs with
      | nil => rfl
      | node c l2 a2 r2 =>
        cases c with
        | Black => rfl
        | Red => exact (hy l2 a2 r2 rfl).elim
    have heq : fixup_insert z
        (⟨Dir.L, Color.Red, fa, fs⟩ :: ⟨Dir.L, Color.Black, ga, gs⟩ :: rest2)
        = blackenRoot (plug (rotate_right (Tree.node Color.Red
            (Tree.node Color.Black z fa fs) ga gs)) rest2) := by
      cases gs with
      | nil => rfl
      | node c l2 a2 r2 =>
        cases c with
        | Black => rfl
        | Red => exact (hy l2 a2 r2 rfl).elim
    rw [heq]
    have hT : Valid (rotate_right (Tree.node Color.Red
        (Tree.node Color.Black z fa fs) ga gs)) (n+1) := by
      simp_all [rotate_right, Valid]
    obtain ⟨m, hm⟩ := valid_plug rest2 hT
      (by intro h; simp [rotate_right, colorOf] at h) hpv2
    obtain ⟨m', hm'⟩ := valid_blackenRoot hm
    exact ⟨m', hm', colorOf_blackenRoot _⟩
  | case7 z f hfc gf rest2 hgd yl ya yr hy ih =>
    intro n hz hzc hp
    obtain ⟨fd, fc, fa, fs⟩ := f
    obtain ⟨gd, gc, ga, gs⟩ := gf
    obtain rfl : fc = Color.Red := hfc
    obtain rfl : gd = Dir.R := hgd
    obtain rfl : gs = Tree.node Color.Red yl ya yr := hy
    obtain ⟨hsib, hsc, hpc, hpv⟩ := hp
    obtain rfl : gc = Color.Black := hpc
    obtain ⟨hgsib, hpv2⟩ := hpv
    have hz' : Valid (Tree.node Color.Red
        (Tree.node Color.Black yl ya yr) ga
        (plugFrame z ⟨fd, Color.Black, fa, fs⟩)) (n+1) := by
      refine ⟨rfl, by rw [colorOf_plugFrame], ?_, ?_⟩
      · exact ⟨hgsib.2.2.1, hgsib.2.2.2⟩
      · cases fd <;> simp_all [plugFrame, Valid]
    exact ih (n+1) hz' rfl hpv2
  | case8 z f hfc gf rest2 hgd hfd hy =>
    intro n hz hzc hp
    obtain ⟨fd, fc, fa, fs⟩ := f
    obtain ⟨gd, gc, ga, gs⟩ := gf
    obtain rfl : fc = Color.Red := hfc
    obtain rfl : gd = Dir.R := hgd
    obtain rfl : fd = Dir.L := hfd
    obtain ⟨hsib, hsc, hpc, hpv⟩ := hp
    obtain rfl : gc = Color.Black := hpc
    obtain ⟨hgsib, hpv2⟩ := hpv
    cases z with
    | nil => exact absurd hzc (by simp [colorOf])
    | node zc zl za zr =>
    obtain rfl : zc = Color.Red := hzc
    have hgsc : colorOf gs = Color.Black := by
      cases gs with
      | nil => rfl
      | node c l2 a2 r2 =>
        cases c with
        | Black => rfl
        | Red => exact (hy l2 a2 r2 rfl).elim
    have heq : fixup_insert (Tree.node Color.Red zl za zr)
        (⟨Dir.L, Color.Red, fa, fs⟩ :: ⟨Dir.R, Color.Black, ga, gs⟩ :: rest2)
        = blackenRoot (plug (rotate_left (Tree.node Color.Red gs ga
            (blackenRoot (rotate_right (plugFrame
              (Tree.node Color.Red zl za zr)
              ⟨Dir.L, Color.Red, fa, fs⟩))))) rest2) := by
      cases gs with
      | nil => rfl
      | node c l2 a2 r2 =>
        cases c with
        | Black => rfl
        | Red => exact (hy l2 a2 r2 rfl).elim
    rw [heq]
    have hT : Valid (rotate_left (Tree.node Color.Red gs ga
        (blackenRoot (rotate_right (plugFrame
          (Tree.node Color.Red zl za zr) ⟨Dir.L, Color.Red, fa, fs⟩)))))
        (n+1) := by
      simp_all [plugFrame, rotate_left, rotate_right, blackenRoot, Valid]
    obtain ⟨m, hm⟩ := valid_plug rest2 hT
      (by intro h
          simp [plugFrame, rotate_left, rotate_right, blackenRoot,
            colorOf] at h) hpv2
    obtain ⟨m', hm'⟩ := valid_blackenRoot hm
    exact ⟨m', hm', colorOf_blackenRoot _⟩
  | case9 z f hfc gf rest2 hgd hfd hy =>
    intro n hz hzc hp
    obtain ⟨fd, fc, fa, fs⟩ := f
    obtain ⟨gd, gc, ga, gs⟩ := gf
    obtain rfl : fc = Color.Red := hfc
    obtain rfl : gd = Dir.R := hgd
    obtain rfl : fd = Dir.R := hfd
    obtain ⟨hsib, hsc, hpc, hpv⟩ := hp
    obtain rfl : gc = Color.Black := hpc
    obtain ⟨hgsib, hpv2⟩ := hpv
    have hgsc : colorOf gs = Color.Black := by
      cases gs with
      | nil => rfl
      | node c l2 a2 r2 =>
        cases c with
        | Black => rfl
        | Red => exact (hy l2 a2 r2 rfl).elim
    have heq : fixup_insert z
        (⟨Dir.R, Color.Red, fa, fs⟩ :: ⟨Dir.R, Color.Black, ga, gs⟩ :: rest2)
        = blackenRoot (plug (rotate_left (Tree.node Color.Red gs ga
            (Tree.node Color.Black fs fa z))) rest2) := by
      cases gs with
      | nil => rfl
      | node c l2 a2 r2 =>
        cases c with
        | Black => rfl
        | Red => exact (hy l2 a2 r2 rfl).elim
    rw [heq]
    have hT : Valid (rotate_left (Tree.node Color.Red gs ga
        (Tree.node Color.Black fs fa z))) (n+1) := by
      simp_all [rotate_left, Valid]
    obtain ⟨m, hm⟩ := valid_plug rest2 hT
      (by intro h; simp [rotate_left, colorOf] at h) hpv2
    obtain ⟨m', hm'⟩ := valid_blackenRoot hm
    exact ⟨m', hm', colorOf_blackenRoot _⟩

/-! ### Comparator contract and the search-tree order

The source requires an admissible three-way comparator: a total preorder
presented as an `int`-valued function.  Two laws suffice for everything the
tree relies on: antisymmetry of the sign (`c x y < 0` exactly when
`c y x > 0`) and transitivity of the non-strict order (`c x y ≤ 0`). -/

/-- Laws of an admissible three-way comparator. -/
structure CmpLaws (c : α → α → Int) : Prop where
  flip : ∀ x y, c x y < 0 ↔ c y x > 0
  letrans : ∀ x y z, c x y ≤ 0 → c y z ≤ 0 → c x z ≤ 0

theorem CmpLaws.refl0 {c : α → α → Int} (h : CmpLaws c) (x : α) : c x x = 0 := by
  have := h.flip x x; omega

theorem CmpLaws.zero_symm {c : α → α → Int} (h : CmpLaws c) {x y : α} (hxy : c x y = 0) :
    c y x = 0 := by
  have h1 := h.flip x y; have h2 := h.flip y x; omega

theorem CmpLaws.lt_trans {c : α → α → Int} (h : CmpLaws c) {x y z : α}
    (h1 : c x y < 0) (h2 : c y z < 0) : c x z < 0 := by
  have h3 := h.letrans x y z (by omega) (by omega)
  rcases (by omega : c x z < 0 ∨ c x z = 0) with h4 | h4
  · exact h4
  · have h5 := h.zero_symm h4
    have h6 := h.letrans z x y (by omega) (by omega)
    have h7 := h.flip y z
    omega

theorem CmpLaws.zero_lt_trans {c : α → α → Int} (h : CmpLaws c) {x y z : α}
    (h1 : c x y = 0) (h2 : c y z < 0) : c x z < 0 := by
  have h3 := h.letrans x y z (by omega) (by omega)
  rcases (by omega : c x z < 0 ∨ c x z = 0) with h4 | h4
  · exact h4
  · have h5 := h.zero_symm h4
    have h6 := h.letrans z x y (by omega) (by omega)
    have h7 := h.flip y z
    omega

theorem CmpLaws.lt_zero_trans {c : α → α → Int} (h : CmpLaws c) {x y z : α}
    (h1 : c x y < 0) (h2 : c y z = 0) : c x z < 0 := by
  have h3 := h.letrans x y z (by omega) (by omega)
  rcases (by omega : c x z < 0 ∨ c x z = 0) with h4 | h4
  · exact h4
  · have h5 := h.zero_symm h4
    have h6 := h.letrans y z x (by omega) (by omega)
    have h7 := h.flip x y
    omega

theorem CmpLaws.zero_zero_trans {c : α → α → Int} (h : CmpLaws c) {x y z : α}
    (h1 : c x y = 0) (h2 : c y z = 0) : c x z = 0 := by
  have h3 := h.letrans x y z (by omega) (by omega)
  have h4 := h.letrans z y x (by have := h.zero_symm h2; omega)
    (by have := h.zero_symm h1; omega)
  have h5 := h.flip x z
  have := h.zero_symm h2
  omega

/-! ### The binary-search-tree order of the descent

`BST` is the search-tree invariant the descent loops rely on, stated with
the element comparator; `fits` records the comparisons a probe won along a
parent chain, which bound where it may be placed. -/

/-- Every payload of the tree satisfies `P`. -/
def allT (P : α → Prop) : Tree α → Prop
  | .nil => True
  | .node _ l a r => P a ∧ allT P l ∧ allT P r

theorem allT_iff {P : α → Prop} {t : Tree α} :
    allT P t ↔ ∀ x ∈ inorder t, P x := by
  induction t with
  | nil => simp [allT, inorder]
  | node c l a r ihl ihr =>
    simp only [allT, inorder, List.mem_append, List.mem_cons, ihl, ihr]
    constructor
    · rintro ⟨ha, hl, hr⟩ x (hx | rfl | hx)
      · exact hl x hx
      · exact ha
      · exact hr x hx
    · intro hx
      exact ⟨hx a (Or.inr (Or.inl rfl)),
        fun x h => hx x (Or.inl h),
        fun x h => hx x (Or.inr (Or.inr h))⟩

/-- Search-tree invariant with respect to the element comparator `c`. -/
def BST (c : α → α → Int) : Tree α → Prop
  | .nil => True
  | .node _ l a r =>
    BST c l ∧ BST c r ∧
      allT (fun x => c x a < 0) l ∧ allT (fun x => c a x < 0) r

/-- Bounds a parent chain imposes on any payload placed in its hole. -/
def fits (c : α → α → Int) (z : α) : Path α → Prop
  | [] => True
  | f :: p =>
    (match f.d with
     | .L => c z f.a < 0
     | .R => c f.a z < 0) ∧ fits c z p

/-- A found result of the descent is a payload of the tree and compares
equal to the probe. -/
theorem descend_found {g : α → Int} :
    ∀ {t : Tree α} {p w p'}, descend g t p = .inr (w, p') →
      w ∈ inorder t ∧ g w = 0 := by
  intro t
  induction t with
  | nil => intro p w p' h; simp [descend] at h
  | node c l a r ihl ihr =>
    intro p w p' h
    rw [descend] at h
    split at h
    · obtain ⟨hm, hz⟩ := ihl h
      exact ⟨by simp [inorder, hm], hz⟩
    · split at h
      · obtain ⟨hm, hz⟩ := ihr h
        exact ⟨by simp [inorder, hm], hz⟩
      · obtain ⟨rfl, rfl⟩ : a = w ∧ p = p' := by
          simpa using h
        exact ⟨by simp [inorder], by omega⟩

/-- A not-found descent ends at a null slot whose parent chain rebuilds the
tree it started from. -/
theorem descend_notfound_plug {g : α → Int} :
    ∀ {t : Tree α} {p p'}, descend g t p = .inl p' →
      plug .nil p' = plug t p := by
  intro t
  induction t with
  | nil => intro p p' h; simp_all [descend]
  | node c l a r ihl ihr =>
    intro p p' h
    rw [descend] at h
    split at h
    · exact ihl h
    · split at h
      · exact ihr h
      · simp at h

/-- A not-found descent from a balanced node with a balanced parent chain
produces a balanced chain with a height-zero hole. -/
theorem descend_notfound_PV {g : α → Int} :
    ∀ {t : Tree α} {p p' n}, descend g t p = .inl p' → Valid t n → PV p n →
      (colorOf t = .Red → pathColor p = .Black) → PV p' 0 := by
  intro t
  induction t with
  | nil =>
    intro p p' n h hv hp hc
    obtain rfl : n = 0 := hv
    obtain rfl : p' = p := by simpa [descend] using h.symm
    exact hp
  | node c l a r ihl ihr =>
    intro p p' n h hv hp hc
    rw [descend] at h
    cases c with
    | Red =>
      obtain ⟨hlc, hrc, hlv, hrv⟩ := hv
      split at h
      · exact ihl h hlv ⟨hrv, hrc, hc rfl, hp⟩
          (fun hred => absurd (hlc ▸ hred) (by simp))
      · split at h
        · exact ihr h hrv ⟨hlv, hlc, hc rfl, hp⟩
            (fun hred => absurd (hrc ▸ hred) (by simp))
        · simp at h
    | Black =>
      cases n with
      | zero => exact hv.elim
      | succ m =>
        obtain ⟨hlv, hrv⟩ := hv
        split at h
        · exact ihl h hlv ⟨hrv, hp⟩ (fun hred => by
            cases colorOf l <;> simp_all [pathColor])
        · split at h
          · exact ihr h hrv ⟨hlv, hp⟩ (fun hred => by
              cases colorOf r <;> simp_all [pathColor])
          · simp at h

/-- A not-found descent records bounds that admit the probe itself. -/
theorem descend_notfound_fits {cmpE : α → α → Int} {z : α} {g : α → Int}
    (hl : CmpLaws cmpE) (hg : ∀ a, g a = cmpE z a) :
    ∀ {t : Tree α} {p p'}, descend g t p = .inl p' →
      fits cmpE z p → fits cmpE z p' := by
  intro t
  induction t with
  | nil =>
    intro p p' h hf
    obtain rfl : p' = p := by simpa [descend] using h.symm
    exact hf
  | node c l a r ihl ihr =>
    intro p p' h hf
    rw [descend] at h
    split at h
    · refine ihl h ⟨?_, hf⟩
      have := hg a; simp_all
    · split at h
      · refine ihr h ⟨?_, hf⟩
        have h0 := hg a
        have h1 := hl.flip a z
        simp only []
        omega
      · simp at h

theorem bst_plugFrame_sub {c : α → α → Int} {t : Tree α} {f : Frame α}
    (h : BST c (plugFrame t f)) : BST c t := by
  obtain ⟨d, fc, fa, fs⟩ := f
  cases d <;> simp_all [plugFrame, BST]

theorem bst_plug_sub {c : α → α → Int} :
    ∀ (p : Path α) (t : Tree α), BST c (plug t p) → BST c t := by
  intro p
  induction p with
  | nil => exact fun t h => h
  | cons f rest ih =>
    intro t h
    exact bst_plugFrame_sub (ih (plugFrame t f) h)

theorem mem_inorder_plugFrame {t : Tree α} {f : Frame α} {x : α}
    (hx : x ∈ inorder t) : x ∈ inorder (plugFrame t f) := by
  obtain ⟨d, fc, fa, fs⟩ := f
  cases d <;> simp_all [plugFrame, inorder]

/-- Payloads of a subtree obey the bounds of its parent chain. -/
theorem bst_plug_fits {c : α → α → Int} :
    ∀ (p : Path α) (t : Tree α), BST c (plug t p) →
      ∀ x ∈ inorder t, fits c x p := by
  intro p
  induction p with
  | nil => intro t _ x _; trivial
  | cons f rest ih =>
    intro t h x hx
    have hall := ih (plugFrame t f) h
    have hsub : BST c (plugFrame t f) := bst_plug_sub rest _ h
    refine ⟨?_, hall x (mem_inorder_plugFrame hx)⟩
    obtain ⟨d, fc, fa, fs⟩ := f
    cases d with
    | L =>
      have := hsub.2.2.1
      exact allT_iff.mp this x hx
    | R =>
      have := hsub.2.2.2
      exact allT_iff.mp this x hx

/-- Replacing the subtree at the hole of a parent chain by another whose
payloads obey the chain's bounds preserves the search-tree invariant. -/
theorem bst_plug_replace {c : α → α → Int} :
    ∀ (p : Path α) (t t' : Tree α), BST c (plug t p) → BST c t' →
      (∀ x ∈ inorder t', fits c x p) → BST c (plug t' p) := by
  intro p
  induction p with
  | nil => intro t t' _ h _; exact h
  | cons f rest ih =>
    intro t t' h ht' hf
    have hsub : BST c (plugFrame t f) := bst_plug_sub rest _ h
    have hfit := bst_plug_fits rest (plugFrame t f) h
    refine ih (plugFrame t f) (plugFrame t' f) h ?_ ?_
    · obtain ⟨d, fc, fa, fs⟩ := f
      cases d with
      | L =>
        refine ⟨ht', hsub.2.1, ?_, hsub.2.2.2⟩
        exact allT_iff.mpr fun x hx => (hf x hx).1
      | R =>
        refine ⟨hsub.1, ht', hsub.2.2.1, ?_⟩
        exact allT_iff.mpr fun x hx => (hf x hx).1
    · intro x hx
      obtain ⟨d, fc, fa, fs⟩ := f
      cases d with
      | L =>
        simp only [plugFrame, inorder, List.mem_append, List.mem_cons] at hx
        rcases hx with hx | rfl | hx
        · exact (hf x hx).2
        · exact hfit x (by simp [plugFrame, inorder])
        · exact hfit x (by simp [plugFrame, inorder, hx])
      | R =>
        simp only [plugFrame, inorder, List.mem_append, List.mem_cons] at hx
        rcases hx with hx | rfl | hx
        · exact hfit x (by simp [plugFrame, inorder, hx])
        · exact hfit x (by simp [plugFrame, inorder])
        · exact (hf x hx).2

/-- A search tree lists its payloads in strictly increasing comparator
order. -/
theorem bst_pairwise {c : α → α → Int} (hl : CmpLaws c) :
    ∀ {t : Tree α}, BST c t →
      List.Pairwise (fun a b => c a b < 0) (inorder t) := by
  intro t
  induction t with
  | nil => intro _; simp [inorder]
  | node cc l a r ihl ihr =>
    intro h
    obtain ⟨hbl, hbr, hal, har⟩ := h
    rw [inorder, List.pairwise_append]
    refine ⟨ihl hbl, ?_, ?_⟩
    · rw [List.pairwise_cons]
      exact ⟨allT_iff.mp har, ihr hbr⟩
    · intro x hx y hy
      rcases List.mem_cons.mp hy with rfl | hy
      · exact allT_iff.mp hal x hx
      · exact hl.lt_trans (allT_iff.mp hal x hx) (allT_iff.mp har y hy)

/-- A tree whose in-order payload list is strictly increasing is a search
tree. -/
theorem pairwise_bst {c : α → α → Int} :
    ∀ {t : Tree α},
      List.Pairwise (fun a b => c a b < 0) (inorder t) → BST c t := by
  intro t
  induction t with
  | nil => intro _; trivial
  | node cc l a r ihl ihr =>
    intro h
    rw [inorder, List.pairwise_append] at h
    obtain ⟨hpl, hpr, hcross⟩ := h
    rw [List.pairwise_cons] at hpr
    refine ⟨ihl hpl, ihr hpr.2, ?_, ?_⟩
    · exact allT_iff.mpr fun x hx => hcross x hx a (by simp)
    · exact allT_iff.mpr fun x hx => hpr.1 x hx

/-- In a strictly increasing list, at most one entry compares equal to any
probe. -/
theorem pairwise_unique {c : α → α → Int} (hl : CmpLaws c) :
    ∀ {l : List α}, List.Pairwise (fun a b => c a b < 0) l →
      ∀ {z x y : α}, x ∈ l → y ∈ l → c z x = 0 → c z y = 0 → x = y := by
  intro l
  induction l with
  | nil => intro _ z x y hx; cases hx
  | cons hd tl ih =>
    intro hp z x y hx hy h1 h2
    rw [List.pairwise_cons] at hp
    rcases List.mem_cons.mp hx with hx1 | hx2
    · rcases List.mem_cons.mp hy with hy1 | hy2
      · rw [hx1, hy1]
      · subst hx1
        exact absurd (hp.1 y hy2) (by
          have := hl.zero_zero_trans (hl.zero_symm h1) h2; omega)
    · rcases List.mem_cons.mp hy with hy1 | hy2
      · subst hy1
        exact absurd (hp.1 x hx2) (by
          have := hl.zero_zero_trans (hl.zero_symm h2) h1; omega)
      · exact ih hp.2 hx2 hy2 h1 h2

/-- When a payload equal to the probe is present in a search tree, the
descent finds one. -/
theorem descend_present {c : α → α → Int} {g : α → Int} {z : α}
    (hl : CmpLaws c) (hg : ∀ a, g a = c z a) :
    ∀ {t : Tree α} (p : Path α) {w : α}, BST c t → w ∈ inorder t →
      c z w = 0 → ∃ w' p'', descend g t p = .inr (w', p'') := by
  intro t
  induction t with
  | nil => intro p w _ hw; simp [inorder] at hw
  | node cc l a r ihl ihr =>
    intro p w hb hw hzw
    obtain ⟨hbl, hbr, hal, har⟩ := hb
    rw [descend]
    rcases (by omega : g a < 0 ∨ 0 < g a ∨ g a = 0) with hga | hga | hga
    · have hza : c z a < 0 := by rw [← hg a]; exact hga
      simp only [inorder, List.mem_append, List.mem_cons] at hw
      rcases hw with hw | rfl | hw
      · rw [if_pos hga]; exact ihl _ hbl hw hzw
      · omega
      · have h1 := allT_iff.mp har w hw
        exact absurd hzw (by have := hl.lt_trans hza h1; omega)
    · have hza : 0 < c z a := by rw [← hg a]; exact hga
      simp only [inorder, List.mem_append, List.mem_cons] at hw
      rcases hw with hw | rfl | hw
      · have h1 := allT_iff.mp hal w hw
        have h2 := hl.zero_lt_trans hzw h1
        omega
      · omega
      · rw [if_neg (by omega), if_pos hga]
        exact ihr _ hbr hw hzw
    · rw [if_neg (by omega), if_neg (by omega)]
      exact ⟨a, p, rfl⟩

/-! ### Insert-step specification

`GoodTree` is the well-formedness every tree enjoys between operations:
balanced, Black root, search-tree ordered.  The step lemmas below describe
one `insert` against a good tree: a probe an equal payload of which is
present is found and the links are untouched; an absent probe is linked Red
and rebalanced, and the result is again good, its payload list gaining
exactly the new payload. -/

/-- Well-formedness of a tree between operations. -/
def GoodTree (c : α → α → Int) (t : Tree α) : Prop :=
  (∃ n, Valid t n) ∧ colorOf t = .Black ∧ BST c t

theorem goodTree_nil {c : α → α → Int} : GoodTree c (.nil : Tree α) :=
  ⟨⟨0, rfl⟩, rfl, trivial⟩

theorem goodTree_singleton {c : α → α → Int} (z : α) :
    GoodTree c (.node .Black .nil z .nil) :=
  ⟨⟨1, ⟨rfl, rfl⟩⟩, rfl, trivial, trivial, trivial, trivial⟩

theorem isNil_iff {t : Tree α} : isNil t = true ↔ t = .nil := by
  cases t <;> simp [isNil]

/-- A not-found descent followed by the red link and `fixup_insert` yields a
good tree whose payload list is the old one with the probe placed at its
comparator position. -/
theorem insert_step {c : α → α → Int} {g : α → Int} {z : α}
    (hl : CmpLaws c) (hg : ∀ a, g a = c z a) {t : Tree α}
    (hgood : GoodTree c t) {p : Path α}
    (h : descend g t [] = .inl p) :
    GoodTree c (fixup_insert (.node .Red .nil z .nil) p) ∧
    inorder (fixup_insert (.node .Red .nil z .nil) p)
      = plugL p ++ z :: plugR p ∧
    inorder t = plugL p ++ plugR p := by
  obtain ⟨⟨n, hv⟩, hc, hb⟩ := hgood
  have hplug : plug .nil p = t := descend_notfound_plug h
  have hpv : PV p 0 :=
    descend_notfound_PV h hv trivial
      (fun hr => by rw [hc] at hr; cases hr)
  have hzv : Valid (.node .Red .nil z .nil : Tree α) 0 :=
    ⟨rfl, rfl, rfl, rfl⟩
  have hfits : fits c z p :=
    descend_notfound_fits hl hg h trivial
  have hbp : BST c (plug (.nil : Tree α) p) := by rw [hplug]; exact hb
  have hbleaf : BST c (.node .Red .nil z .nil : Tree α) :=
    ⟨trivial, trivial, trivial, trivial⟩
  have hbz : BST c (plug (.node .Red .nil z .nil : Tree α) p) := by
    refine bst_plug_replace p .nil _ hbp hbleaf ?_
    intro x hx
    obtain rfl : x = z := by simpa [inorder] using hx
    exact hfits
  have hio : inorder (fixup_insert (.node .Red .nil z .nil : Tree α) p)
      = plugL p ++ z :: plugR p := by
    rw [inorder_fixup, inorder_plug]; simp [inorder]
  have hiot : inorder t = plugL p ++ plugR p := by
    rw [← hplug, inorder_plug]; simp [inorder]
  obtain ⟨m, hm, hcm⟩ := valid_fixup _ p 0 hzv rfl hpv
  refine ⟨⟨⟨m, hm⟩, hcm, ?_⟩, hio, hiot⟩
  have h2 := bst_pairwise hl hbz
  rw [← inorder_fixup] at h2
  exact pairwise_bst h2

/-- Comparator on owned payloads: `make_node` copies the key into the node,
and the client's comparator reads that copy (`comp(key, where->data)`). -/
def pairCmp (cmp : κ → κ → Int) : (Nat × κ) → (Nat × κ) → Int :=
  fun p q => cmp p.2 q.2

theorem pairCmp_laws {cmp : κ → κ → Int} (hl : CmpLaws cmp) :
    CmpLaws (pairCmp cmp) :=
  ⟨fun x y => hl.flip x.2 y.2, fun x y z => hl.letrans x.2 y.2 z.2⟩

/-- Well-formedness of an owning container between operations. -/
def GoodCont (cmp : κ → κ → Int) (s : ContState κ) : Prop :=
  GoodTree (pairCmp cmp) s.root

/-- Well-formedness of an intrusive chain between operations. -/
def GoodChain (c : α → α → Int) (t : ChainState α) : Prop :=
  GoodTree c t.root

/-- Calling `container<T>::insert` with an equal payload present returns that
payload and changes nothing: no allocation, no relinking, no recount. -/
theorem contInsert_found {cmp : κ → κ → Int} (hl : CmpLaws cmp)
    {s : ContState κ} (hg : GoodCont cmp s) {k : κ} {w : Nat × κ}
    (hw : w ∈ inorder s.root) (heq : cmp k w.2 = 0) :
    contInsert cmp s k = (s, w) := by
  obtain ⟨hv, hc, hb⟩ := hg
  have hnn : isNil s.root = false := by
    cases hr : s.root with
    | nil => rw [hr] at hw; simp [inorder] at hw
    | node c l a r => rfl
  have hgfun : ∀ a : Nat × κ, cmp k a.2 = pairCmp cmp (0, k) a :=
    fun _ => rfl
  obtain ⟨w', p'', hfound⟩ :=
    descend_present (z := ((0 : Nat), k)) (pairCmp_laws hl) hgfun ([]) hb hw
      heq
  have hw' := descend_found (g := fun x : Nat × κ => cmp k x.2) hfound
  have huniq : w' = w :=
    pairwise_unique (pairCmp_laws hl) (bst_pairwise (pairCmp_laws hl) hb)
      (z := ((0 : Nat), k)) hw'.1 hw hw'.2 heq
  simp [contInsert, hnn, hfound, huniq]

/-- Calling `container<T>::insert` on an absent key allocates one payload, links it,
bumps the count and returns the new payload; the tree stays good and its
payload list gains exactly the new pair. -/
theorem contInsert_notfound {cmp : κ → κ → Int} (hl : CmpLaws cmp)
    {s : ContState κ} (hg : GoodCont cmp s) {k : κ}
    (habs : ∀ w ∈ inorder s.root, cmp k w.2 ≠ 0) :
    GoodCont cmp (contInsert cmp s k).1 ∧
    (contInsert cmp s k).2 = (s.nextId, k) ∧
    (contInsert cmp s k).1.nextId = s.nextId + 1 ∧
    (contInsert cmp s k).1.count = s.count + 1 ∧
    (inorder (contInsert cmp s k).1.root).Perm
      ((s.nextId, k) :: inorder s.root) := by
  cases hnil : isNil s.root with
  | true =>
    have hroot : s.root = .nil := isNil_iff.mp hnil
    have hstep : contInsert cmp s k =
        ({ root := .node .Black .nil (s.nextId, k) .nil,
           nextId := s.nextId + 1, count := s.count + 1 }, (s.nextId, k)) := by
      simp [contInsert, hnil]
    rw [hstep]
    refine ⟨goodTree_singleton _, rfl, rfl, rfl, ?_⟩
    rw [hroot]
    simp [inorder]
  | false =>
    cases hdesc : descend (fun x => cmp k x.2) s.root [] with
    | inr wp =>
      obtain ⟨w, p''⟩ := wp
      have hfound := descend_found (g := fun x : Nat × κ => cmp k x.2) hdesc
      exact absurd hfound.2 (habs w hfound.1)
    | inl p =>
      have hgfun : ∀ a : Nat × κ, (fun x : Nat × κ => cmp k x.2) a
          = pairCmp cmp (s.nextId, k) a := fun _ => rfl
      obtain ⟨hgood, hio, hiot⟩ :=
        insert_step (pairCmp_laws hl) hgfun hg hdesc
      have hstep : contInsert cmp s k =
          ({ root := fixup_insert (.node .Red .nil (s.nextId, k) .nil) p,
             nextId := s.nextId + 1, count := s.count + 1 },
           (s.nextId, k)) := by
        simp [contInsert, hnil, hdesc]
      rw [hstep]
      refine ⟨hgood, rfl, rfl, rfl, ?_⟩
      show (inorder (fixup_insert (.node .Red .nil (s.nextId, k) .nil) p)).Perm _
      rw [hio, hiot]
      exact List.perm_middle

/-- Calling `chain<Node>::insert` with an equal node present bumps the count but
does not link the argument in — and returns the argument `z` itself, not
the node it found. -/
theorem chainInsert_found {c : α → α → Int} (hl : CmpLaws c)
    {t : ChainState α} (hg : GoodChain c t) {z w : α}
    (hw : w ∈ inorder t.root) (heq : c z w = 0) :
    chainInsert c t z = ({ t with count := t.count + 1 }, z) := by
  obtain ⟨hv, hc, hb⟩ := hg
  obtain ⟨w', p'', hfound⟩ :=
    descend_present (z := z) hl (fun _ => rfl) ([]) hb hw heq
  simp [chainInsert, hfound]

/-- Calling `chain<Node>::insert` on a node with no equal node present links it,
rebalances, bumps the count and returns it; the tree stays good and its
payload list gains exactly the new node. -/
theorem chainInsert_notfound {c : α → α → Int} (hl : CmpLaws c)
    {t : ChainState α} (hg : GoodChain c t) {z : α}
    (habs : ∀ w ∈ inorder t.root, c z w ≠ 0) :
    GoodChain c (chainInsert c t z).1 ∧
    (chainInsert c t z).2 = z ∧
    (chainInsert c t z).1.count = t.count + 1 ∧
    (inorder (chainInsert c t z).1.root).Perm (z :: inorder t.root) := by
  cases hdesc : descend (fun a => c z a) t.root [] with
  | inr wp =>
    obtain ⟨w, p''⟩ := wp
    have hfound := descend_found (g := fun a : α => c z a) hdesc
    exact absurd hfound.2 (habs w hfound.1)
  | inl p =>
    cases hnil : isNil t.root with
    | true =>
      have hroot : t.root = .nil := isNil_iff.mp hnil
      have hstep : chainInsert c t z =
          ({ root := .node .Black .nil z .nil, count := t.count + 1 }, z) := by
        simp [chainInsert, hdesc, hnil]
      rw [hstep]
      refine ⟨goodTree_singleton _, rfl, rfl, ?_⟩
      rw [hroot]
      simp [inorder]
    | false =>
      obtain ⟨hgood, hio, hiot⟩ :=
        insert_step hl (fun _ => rfl) hg hdesc
      have hstep : chainInsert c t z =
          ({ root := fixup_insert (.node .Red .nil z .nil) p,
             count := t.count + 1 }, z) := by
        simp [chainInsert, hdesc, hnil]
      rw [hstep]
      refine ⟨hgood, rfl, rfl, ?_⟩
      show (inorder (fixup_insert (.node .Red .nil z .nil) p)).Perm _
      rw [hio, hiot]
      exact List.perm_middle

/-! ### Whole-run invariants

Folding `insert` over a list of keys preserves well-formedness; with
pairwise-inequivalent keys every insertion takes the not-found path, so the
count grows by one per key and the payloads are exactly the keys given. -/

theorem contInsert_good {cmp : κ → κ → Int} (hl : CmpLaws cmp)
    {s : ContState κ} {k : κ} (hg : GoodCont cmp s) :
    GoodCont cmp (contInsert cmp s k).1 := by
  by_cases hp : ∃ w ∈ inorder s.root, cmp k w.2 = 0
  · obtain ⟨w, hw, heq⟩ := hp
    rw [contInsert_found hl hg hw heq]
    exact hg
  · push_neg at hp
    exact (contInsert_notfound hl hg hp).1

/-- Whatever path `insert` takes, the payload it returns is stored in the
tree and compares equal to the key. -/
theorem contInsert_returns {cmp : κ → κ → Int} (hl : CmpLaws cmp)
    {s : ContState κ} {k : κ} (hg : GoodCont cmp s) :
    (contInsert cmp s k).2 ∈ inorder (contInsert cmp s k).1.root ∧
    cmp k ((contInsert cmp s k).2).2 = 0 := by
  by_cases hp : ∃ w ∈ inorder s.root, cmp k w.2 = 0
  · obtain ⟨w, hw, heq⟩ := hp
    rw [contInsert_found hl hg hw heq]
    exact ⟨hw, heq⟩
  · push_neg at hp
    obtain ⟨hgood, hret, _, _, hperm⟩ := contInsert_notfound hl hg hp
    refine ⟨?_, ?_⟩
    · rw [hret]
      exact hperm.mem_iff.mpr (by simp)
    · rw [hret]
      exact hl.refl0 k

theorem contInsertMany_good {cmp : κ → κ → Int} (hl : CmpLaws cmp) :
    ∀ (ks : List κ) (s : ContState κ), GoodCont cmp s →
      GoodCont cmp (contInsertMany cmp s ks) := by
  intro ks
  induction ks with
  | nil => exact fun s h => h
  | cons k ks ih => exact fun s h => ih _ (contInsert_good hl h)

theorem contInsertMany_count {cmp : κ → κ → Int} (hl : CmpLaws cmp) :
    ∀ (ks : List κ) (s : ContState κ), GoodCont cmp s →
      (∀ w ∈ inorder s.root, ∀ k ∈ ks, cmp k w.2 ≠ 0) →
      List.Pairwise (fun a b => cmp a b ≠ 0) ks →
      (contInsertMany cmp s ks).count = s.count + ks.length := by
  intro ks
  induction ks with
  | nil => intro s _ _ _; simp [contInsertMany]
  | cons k ks ih =>
    intro s hg hdisj hpw
    rw [List.pairwise_cons] at hpw
    have habs : ∀ w ∈ inorder s.root, cmp k w.2 ≠ 0 :=
      fun w hw => hdisj w hw k (by simp)
    obtain ⟨hgood, hret, hnid, hcount, hperm⟩ :=
      contInsert_notfound hl hg habs
    have hd : ∀ w ∈ inorder (contInsert cmp s k).1.root,
        ∀ k' ∈ ks, cmp k' w.2 ≠ 0 := by
      intro w hw k' hk'
      rcases List.mem_cons.mp (hperm.mem_iff.mp hw) with h | h
      · rw [h]
        intro h0
        exact hpw.1 k' hk' (hl.zero_symm h0)
      · exact hdisj w h k' (List.mem_cons_of_mem _ hk')
    have hstep := ih (contInsert cmp s k).1 hgood hd hpw.2
    show (contInsertMany cmp (contInsert cmp s k).1 ks).count = _
    rw [hstep, hcount]
    simp [Nat.add_assoc, Nat.add_comm]
    omega

theorem chainInsert_good {c : α → α → Int} (hl : CmpLaws c)
    {t : ChainState α} {z : α} (hg : GoodChain c t) :
    GoodChain c (chainInsert c t z).1 := by
  by_cases hp : ∃ w ∈ inorder t.root, c z w = 0
  · obtain ⟨w, hw, heq⟩ := hp
    rw [chainInsert_found hl hg hw heq]
    exact hg
  · push_neg at hp
    exact (chainInsert_notfound hl hg hp).1

theorem chainInsertMany_good {c : α → α → Int} (hl : CmpLaws c) :
    ∀ (zs : List α) (t : ChainState α), GoodChain c t →
      GoodChain c (chainInsertMany c t zs) := by
  intro zs
  induction zs with
  | nil => exact fun t h => h
  | cons z zs ih => exact fun t h => ih _ (chainInsert_good hl h)

/-- With pairwise-inequivalent fresh nodes, the chain ends up holding
exactly the nodes given to it. -/
theorem chainInsertMany_elems {c : α → α → Int} (hl : CmpLaws c) :
    ∀ (zs : List α) (t : ChainState α), GoodChain c t →
      (∀ w ∈ inorder t.root, ∀ z ∈ zs, c z w ≠ 0) →
      List.Pairwise (fun a b => c a b ≠ 0) zs →
      (inorder (chainInsertMany c t zs).root).Perm (zs ++ inorder t.root) := by
  intro zs
  induction zs with
  | nil => intro t _ _ _; simp [chainInsertMany]
  | cons z zs ih =>
    intro t hg hdisj hpw
    rw [List.pairwise_cons] at hpw
    have habs : ∀ w ∈ inorder t.root, c z w ≠ 0 :=
      fun w hw => hdisj w hw z (by simp)
    obtain ⟨hgood, hret, hcount, hperm⟩ := chainInsert_notfound hl hg habs
    have hd : ∀ w ∈ inorder (chainInsert c t z).1.root,
        ∀ z' ∈ zs, c z' w ≠ 0 := by
      intro w hw z' hz'
      rcases List.mem_cons.mp (hperm.mem_iff.mp hw) with h | h
      · rw [h]
        intro h0
        exact hpw.1 z' hz' (hl.zero_symm h0)
      · exact hdisj w h z' (List.mem_cons_of_mem _ hz')
    have hstep := ih (chainInsert c t z).1 hgood hd hpw.2
    show (inorder (chainInsertMany c (chainInsert c t z).1 zs).root).Perm _
    refine hstep.trans ?_
    refine (hperm.append_left zs).trans ?_
    exact List.perm_middle

theorem intCmp_laws : CmpLaws intCmp := by
  constructor
  · intro x y
    simp only [intCmp]
    split_ifs <;> omega
  · intro x y z
    simp only [intCmp]
    split_ifs <;> omega

/-- C1.  Unification idempotence of the owning tree: on any container built
by insertions from empty under an admissible comparator, inserting a key
twice returns the same payload identity both times and the second call
changes nothing; inserting `k1` and then `k2` with `cmp(k1,k2) == 0`
returns the same payload identity; and when an equal key is already present
`insert` returns that pre-existing payload with the whole state — tree,
allocation counter and count — unchanged, so no node is allocated. -/
theorem c1_unification_idempotence {κ : Type} (cmp : κ → κ → Int)
    (hl : CmpLaws cmp) (ks : List κ) (k k1 k2 : κ) (h12 : cmp k1 k2 = 0) :
    ((contInsert cmp (contInsert cmp (contInsertMany cmp contEmpty ks) k).1
          k).2
        = (contInsert cmp (contInsertMany cmp contEmpty ks) k).2 ∧
      (contInsert cmp (contInsert cmp (contInsertMany cmp contEmpty ks) k).1
          k).1
        = (contInsert cmp (contInsertMany cmp contEmpty ks) k).1) ∧
    ((contInsert cmp (contInsert cmp (contInsertMany cmp contEmpty ks) k1).1
          k2).2
        = (contInsert cmp (contInsertMany cmp contEmpty ks) k1).2) ∧
    (∀ w ∈ inorder (contInsertMany cmp contEmpty ks).root, cmp k w.2 = 0 →
      contInsert cmp (contInsertMany cmp contEmpty ks) k
        = (contInsertMany cmp contEmpty ks, w)) := by
  have hg : GoodCont cmp (contInsertMany cmp contEmpty ks) :=
    contInsertMany_good hl ks _ goodTree_nil
  have hr1 := contInsert_returns (k := k) hl hg
  have hg1 : GoodCont cmp (contInsert cmp (contInsertMany cmp contEmpty ks)
      k).1 := contInsert_good hl hg
  have hfound := contInsert_found hl hg1 hr1.1 hr1.2
  refine ⟨⟨by rw [hfound], by rw [hfound]⟩, ?_, ?_⟩
  · have hrA := contInsert_returns (k := k1) hl hg
    have hgA : GoodCont cmp (contInsert cmp
        (contInsertMany cmp contEmpty ks) k1).1 := contInsert_good hl hg
    have heq2 : cmp k2 ((contInsert cmp (contInsertMany cmp contEmpty ks)
        k1).2).2 = 0 :=
      hl.zero_zero_trans (hl.zero_symm h12) hrA.2
    rw [contInsert_found hl hgA hrA.1 heq2]
  · intro w hw heq
    exact contInsert_found hl hg hw heq

theorem c1_unification_idempotence_witness :
    (CmpLaws intCmp ∧ intCmp 5 5 = 0) ∧
    (((contInsert intCmp (contInsert intCmp
          (contInsertMany intCmp contEmpty [1, 2, 3]) 2).1 2).2
        = (contInsert intCmp (contInsertMany intCmp contEmpty [1, 2, 3])
            2).2 ∧
      (contInsert intCmp (contInsert intCmp
          (contInsertMany intCmp contEmpty [1, 2, 3]) 2).1 2).1
        = (contInsert intCmp (contInsertMany intCmp contEmpty [1, 2, 3])
            2).1) ∧
    ((contInsert intCmp (contInsert intCmp
          (contInsertMany intCmp contEmpty [1, 2, 3]) 5).1 5).2
        = (contInsert intCmp (contInsertMany intCmp contEmpty [1, 2, 3])
            5).2) ∧
    (∀ w ∈ inorder (contInsertMany intCmp contEmpty [1, 2, 3]).root,
      intCmp 2 w.2 = 0 →
      contInsert intCmp (contInsertMany intCmp contEmpty [1, 2, 3]) 2
        = (contInsertMany intCmp contEmpty [1, 2, 3], w))) :=
  ⟨⟨intCmp_laws, by decide⟩,
    c1_unification_idempotence intCmp intCmp_laws [1, 2, 3] 2 5 5
      (by decide)⟩

/-- C2.  Red-black balance invariant: every sequence of insertions into an
initially empty tree — owning container or embedded chain — under an
admissible comparator leaves the root Black, the tree balanced (no Red node
with a Red parent and equal Black count on every root-to-sentinel path, the
content of `Valid`), and the in-order traversal strictly increasing in
comparator order. -/
theorem c2_balance_invariant {κ α : Type} (cmp : κ → κ → Int)
    (cE : α → α → Int) (hlk : CmpLaws cmp) (hlE : CmpLaws cE)
    (ks : List κ) (zs : List α) :
    (colorOf (contInsertMany cmp contEmpty ks).root = .Black ∧
      (∃ n, Valid (contInsertMany cmp contEmpty ks).root n) ∧
      List.Pairwise (fun a b => cmp a.2 b.2 < 0)
        (inorder (contInsertMany cmp contEmpty ks).root)) ∧
    (colorOf (chainInsertMany cE chainEmpty zs).root = .Black ∧
      (∃ n, Valid (chainInsertMany cE chainEmpty zs).root n) ∧
      List.Pairwise (fun a b => cE a b < 0)
        (inorder (chainInsertMany cE chainEmpty zs).root)) := by
  have hgc : GoodCont cmp (contInsertMany cmp contEmpty ks) :=
    contInsertMany_good hlk ks _ goodTree_nil
  have hgh : GoodChain cE (chainInsertMany cE chainEmpty zs) :=
    chainInsertMany_good hlE zs _ goodTree_nil
  exact ⟨⟨hgc.2.1, hgc.1, bst_pairwise (pairCmp_laws hlk) hgc.2.2⟩,
    ⟨hgh.2.1, hgh.1, bst_pairwise hlE hgh.2.2⟩⟩

theorem c2_balance_invariant_witness :
    (CmpLaws intCmp ∧ CmpLaws intCmp) ∧
    ((colorOf (contInsertMany intCmp contEmpty [3, 1, 2]).root = .Black ∧
      (∃ n, Valid (contInsertMany intCmp contEmpty [3, 1, 2]).root n) ∧
      List.Pairwise (fun a b => intCmp a.2 b.2 < 0)
        (inorder (contInsertMany intCmp contEmpty [3, 1, 2]).root)) ∧
    (colorOf (chainInsertMany intCmp chainEmpty [2, 1, 3]).root = .Black ∧
      (∃ n, Valid (chainInsertMany intCmp chainEmpty [2, 1, 3]).root n) ∧
      List.Pairwise (fun a b => intCmp a b < 0)
        (inorder (chainInsertMany intCmp chainEmpty [2, 1, 3]).root))) :=
  ⟨⟨intCmp_laws, intCmp_laws⟩,
    c2_balance_invariant intCmp intCmp intCmp_laws intCmp_laws
      [3, 1, 2] [2, 1, 3]⟩

/-- C3, counterexample to the claim as stated.  The chain holds exactly one
node, `(0, 5)`; inserting the distinct node `(1, 5)`, equal to it under the
comparator on second components, leaves the tree unchanged and does not
link `(1, 5)` — but `chain<Node>::insert` returns `z`, the caller's node
`(1, 5)`, not the pre-existing equal node `(0, 5)`. -/
theorem c3_counterexample :
    inorder (chainInsertMany (pairCmp intCmp) chainEmpty
        [((0 : Nat), (5 : Int))]).root = [(0, 5)] ∧
    (chainInsert (pairCmp intCmp)
        (chainInsertMany (pairCmp intCmp) chainEmpty [((0 : Nat), (5 : Int))])
        (1, 5)).1.root
      = (chainInsertMany (pairCmp intCmp) chainEmpty
          [((0 : Nat), (5 : Int))]).root ∧
    (chainInsert (pairCmp intCmp)
        (chainInsertMany (pairCmp intCmp) chainEmpty [((0 : Nat), (5 : Int))])
        (1, 5)).2 = (1, 5) ∧
    ((1 : Nat), (5 : Int)) ≠ ((0 : Nat), (5 : Int)) := by
  decide

/-- C3, amended.  Embedded-tree duplicate suppression: on a chain built by
insertions from empty, inserting a node `z` when an equal node `w` is
already present leaves the tree — links, colors, membership — unchanged and
does not link `z` in; the insert returns the caller's node `z` itself (not
the pre-existing equal node), and the count is still incremented. -/
theorem c3_duplicate_suppression {α : Type} (c : α → α → Int)
    (hl : CmpLaws c) (zs : List α) (z w : α)
    (hw : w ∈ inorder (chainInsertMany c chainEmpty zs).root)
    (heq : c z w = 0) :
    chainInsert c (chainInsertMany c chainEmpty zs) z
      = ({ root := (chainInsertMany c chainEmpty zs).root,
           count := (chainInsertMany c chainEmpty zs).count + 1 }, z) := by
  have hg : GoodChain c (chainInsertMany c chainEmpty zs) :=
    chainInsertMany_good hl zs _ goodTree_nil
  exact chainInsert_found hl hg hw heq

theorem c3_duplicate_suppression_witness :
    (CmpLaws (pairCmp intCmp) ∧
      ((0 : Nat), (5 : Int)) ∈ inorder (chainInsertMany (pairCmp intCmp)
        chainEmpty [((0 : Nat), (5 : Int))]).root ∧
      pairCmp intCmp (1, 5) (0, 5) = 0) ∧
    chainInsert (pairCmp intCmp)
        (chainInsertMany (pairCmp intCmp) chainEmpty [((0 : Nat), (5 : Int))])
        (1, 5)
      = ({ root := (chainInsertMany (pairCmp intCmp) chainEmpty
              [((0 : Nat), (5 : Int))]).root,
           count := (chainInsertMany (pairCmp intCmp) chainEmpty
              [((0 : Nat), (5 : Int))]).count + 1 }, (1, 5)) :=
  ⟨⟨pairCmp_laws intCmp_laws, by decide, by decide⟩,
    c3_duplicate_suppression (pairCmp intCmp) (pairCmp_laws intCmp_laws)
      [((0 : Nat), (5 : Int))] (1, 5) (0, 5) (by decide) (by decide)⟩

/-- C5, counterexample to the claim as stated.  Inserting the key `5` into
the owning container twice: the first call brings `size()` to 1, but the
second call — key already present, no node allocated — leaves the count at
1 instead of incrementing it. -/
theorem c5_counterexample :
    ¬ ((contInsert intCmp (contInsert intCmp contEmpty 5).1 5).1.count
        = (contInsert intCmp contEmpty 5).1.count + 1) := by
  decide

/-- C5, amended.  On any container built by insertions from empty, a call
to `insert` increments the count exactly when the key is absent; a call
that finds the key already present leaves the count unchanged.  (It is the
embedded chain, not the owning container, whose counter increments on every
call.) -/
theorem c5_count_on_duplicate {κ : Type} (cmp : κ → κ → Int)
    (hl : CmpLaws cmp) (ks : List κ) (k : κ) :
    (contInsert cmp (contInsertMany cmp contEmpty ks) k).1.count
      = (if (inorder (contInsertMany cmp contEmpty ks).root).any
            (fun w => cmp k w.2 == 0)
         then (contInsertMany cmp contEmpty ks).count
         else (contInsertMany cmp contEmpty ks).count + 1) := by
  have hg : GoodCont cmp (contInsertMany cmp contEmpty ks) :=
    contInsertMany_good hl ks _ goodTree_nil
  by_cases hp : ∃ w ∈ inorder (contInsertMany cmp contEmpty ks).root,
      cmp k w.2 = 0
  · obtain ⟨w, hw, heq⟩ := hp
    rw [contInsert_found hl hg hw heq, if_pos]
    rw [List.any_eq_true]
    exact ⟨w, hw, by simpa using heq⟩
  · push_neg at hp
    obtain ⟨_, _, _, hcount, _⟩ := contInsert_notfound hl hg hp
    rw [hcount, if_neg]
    rw [List.any_eq_true]
    rintro ⟨w, hw, hbeq⟩
    exact hp w hw (by simpa using hbeq)

theorem c5_count_on_duplicate_witness :
    CmpLaws intCmp ∧
    (contInsert intCmp (contInsertMany intCmp contEmpty [5]) 5).1.count
      = (if (inorder (contInsertMany intCmp contEmpty [5]).root).any
            (fun w => intCmp 5 w.2 == 0)
         then (contInsertMany intCmp contEmpty [5]).count
         else (contInsertMany intCmp contEmpty [5]).count + 1) :=
  ⟨intCmp_laws, c5_count_on_duplicate intCmp intCmp_laws [5] 5⟩

/-- C6.  Count semantics for distinct keys: inserting `N` pairwise
inequivalent keys into an initially empty owning container yields
`size() == N`. -/
theorem c6_count_distinct {κ : Type} (cmp : κ → κ → Int) (hl : CmpLaws cmp)
    (ks : List κ) (hdist : List.Pairwise (fun a b => cmp a b ≠ 0) ks) :
    (contInsertMany cmp contEmpty ks).count = ks.length := by
  have h := contInsertMany_count hl ks contEmpty goodTree_nil
    (by intro w hw; simp [contEmpty, inorder] at hw) hdist
  simpa [contEmpty] using h

theorem c6_count_distinct_witness :
    (CmpLaws intCmp ∧
      List.Pairwise (fun a b => intCmp a b ≠ 0) [5, 2, 8, 1]) ∧
    (contInsertMany intCmp contEmpty [5, 2, 8, 1]).count
      = ([5, 2, 8, 1] : List Int).length :=
  ⟨⟨intCmp_laws, by decide⟩,
    c6_count_distinct intCmp intCmp_laws [5, 2, 8, 1] (by decide)⟩

/-! ### The second copy of the red-black tree utility

The source file contains the tree utility twice (an original copy and a
revised one).  The revised copy spells null as `nullptr`, zeroes a fresh
node's arms after constructing its payload instead of before, and destroys
`n->data` rather than the whole node — none of which is observable through
`find`/`insert`.  Its operations are transcribed below under `second`, over
the same data model, and proved observationally equal to the first copy. -/

namespace second

/-- Second copy of `core<Node>::rotate_left`. -/
def rotate_left : Tree α → Tree α
  | .node c l a (.node c' rl a' rr) => .node c' (.node c l a rl) a' rr
  | t => t

/-- Second copy of `core<Node>::rotate_right`. -/
def rotate_right : Tree α → Tree α
  | .node c (.node c' ll a' lr) a r => .node c' ll a' (.node c lr a r)
  | t => t

/-- Second copy of the null-pointer test. -/
def isNil : Tree α → Bool
  | .nil => true
  | .node _ _ _ _ => false

/-- Second copy of the `root->color = Node::Black` store. -/
def blackenRoot : Tree α → Tree α
  | .nil => .nil
  | .node _ l a r => .node .Black l a r

/-- Second copy of the descent loop. -/
def descend (g : α → Int) : Tree α → Path α → Path α ⊕ (α × Path α)
  | .nil, p => .inl p
  | .node c l a r, p =>
    if g a < 0 then descend g l (⟨.L, c, a, r⟩ :: p)
    else if 0 < g a then descend g r (⟨.R, c, a, l⟩ :: p)
    else .inr (a, p)

/-- Second copy of `core<Node>::fixup_insert`. -/
def fixup_insert (z : Tree α) : Path α → Tree α
  | [] => blackenRoot z
  | pf :: rest =>
    match pf.c with
    | .Black => blackenRoot (plug z (pf :: rest))
    | .Red =>
      match rest with
      | [] => blackenRoot (plug z (pf :: rest))
      | gf :: rest2 =>
        match gf.d with
        | .L =>
          match gf.sib with
          | .node .Red yl ya yr =>
            fixup_insert
              (.node .Red (plugFrame z { pf with c := .Black }) gf.a
                (.node .Black yl ya yr)) rest2
          | y =>
            match pf.d with
            | .R =>
              blackenRoot (plug
                (rotate_right (.node .Red
                  (blackenRoot (rotate_left (plugFrame z pf))) gf.a y)) rest2)
            | .L =>
              blackenRoot (plug
                (rotate_right (.node .Red
                  (.node .Black z pf.a pf.sib) gf.a y)) rest2)
        | .R =>
          match gf.sib with
          | .node .Red yl ya yr =>
            fixup_insert
              (.node .Red (.node .Black yl ya yr) gf.a
                (plugFrame z { pf with c := .Black })) rest2
          | y =>
            match pf.d with
            | .L =>
              blackenRoot (plug
                (rotate_left (.node .Red y gf.a
                  (blackenRoot (rotate_right (plugFrame z pf))))) rest2)
            | .R =>
              blackenRoot (plug
                (rotate_left (.node .Red y gf.a
                  (.node .Black pf.sib pf.a z))) rest2)

/-- Second copy of the search loop. -/
def findT (g : α → Int) : Tree α → Option α
  | .nil => none
  | .node _ l a r =>
    if g a < 0 then findT g l
    else if 0 < g a then findT g r
    else some a

/-- Second copy of `chain<Node>::insert`. -/
def chainInsert (cmpE : α → α → Int) (t : ChainState α) (z : α) :
    ChainState α × α :=
  match descend (fun a => cmpE z a) t.root [] with
  | .inr _ => ({ t with count := t.count + 1 }, z)
  | .inl p =>
    if isNil t.root then
      ({ root := .node .Black .nil z .nil, count := t.count + 1 }, z)
    else
      ({ root := fixup_insert (.node .Red .nil z .nil) p,
         count := t.count + 1 }, z)

/-- Second copy of `chain<Node>::find`. -/
def chainFind (cmp : κ → α → Int) (t : ChainState α) (k : κ) : Option α :=
  findT (fun a => cmp k a) t.root

/-- Second copy of `container<T>::insert`; `make_node` constructs the
payload before zeroing the arms here, which the abstraction cannot tell
apart from the first copy's order. -/
def contInsert (cmp : κ → κ → Int) (c : ContState κ) (k : κ) :
    ContState κ × (Nat × κ) :=
  if isNil c.root then
    ({ root := .node .Black .nil (c.nextId, k) .nil,
       nextId := c.nextId + 1, count := c.count + 1 }, (c.nextId, k))
  else
    match descend (fun x => cmp k x.2) c.root [] with
    | .inr (w, _) => (c, w)
    | .inl p =>
      ({ root := fixup_insert (.node .Red .nil (c.nextId, k) .nil) p,
         nextId := c.nextId + 1, count := c.count + 1 }, (c.nextId, k))

/-- Second copy of `container<T>::find`. -/
def contFind (cmp : κ → κ → Int) (c : ContState κ) (k : κ) :
    Option (Nat × κ) :=
  findT (fun x => cmp k x.2) c.root

end second

theorem second_rotate_left_eq (t : Tree α) :
    second.rotate_left t = rotate_left t := by
  cases t with
  | nil => rfl
  | node c l a r => cases r <;> rfl

theorem second_rotate_right_eq (t : Tree α) :
    second.rotate_right t = rotate_right t := by
  cases t with
  | nil => rfl
  | node c l a r => cases l <;> rfl

theorem second_isNil_eq (t : Tree α) : second.isNil t = isNil t := by
  cases t <;> rfl

theorem second_blackenRoot_eq (t : Tree α) :
    second.blackenRoot t = blackenRoot t := by
  cases t <;> rfl

theorem second_descend_eq (g : α → Int) (t : Tree α) (p : Path α) :
    second.descend g t p = descend g t p := by
  induction t generalizing p with
  | nil => rfl
  | node c l a r ihl ihr => simp [second.descend, descend, ihl, ihr]

theorem second_findT_eq (g : α → Int) (t : Tree α) :
    second.findT g t = findT g t := by
  induction t with
  | nil => rfl
  | node c l a r ihl ihr => simp [second.findT, findT, ihl, ihr]

theorem second_fixup_eq (z : Tree α) (p : Path α) :
    second.fixup_insert z p = fixup_insert z p := by
  induction z, p using second.fixup_insert.induct with
  | case1 z => rfl
  | case2 z f p hfc =>
    obtain ⟨fd, fc, fa, fs⟩ := f
    obtain rfl : fc = Color.Black := hfc
    rfl
  | case3 z f hfc =>
    obtain ⟨fd, fc, fa, fs⟩ := f
    obtain rfl : fc = Color.Red := hfc
    rfl
  | case4 z f hfc gf rest2 hgd yl ya yr hy ih =>
    obtain ⟨fd, fc, fa, fs⟩ := f
    obtain ⟨gd, gc, ga, gs⟩ := gf
    obtain rfl : fc = Color.Red := hfc
    obtain rfl : gd = Dir.L := hgd
    obtain rfl : gs = Tree.node Color.Red yl ya yr := hy
    simpa [second.fixup_insert, fixup_insert] using ih
  | case5 z f hfc gf rest2 hgd hfd hy =>
    obtain ⟨fd, fc, fa, fs⟩ := f
    obtain ⟨gd, gc, ga, gs⟩ := gf
    obtain rfl : fc = Color.Red := hfc
    obtain rfl : gd = Dir.L := hgd
    obtain rfl : fd = Dir.R := hfd
    cases gs with
    | nil => simp [second.fixup_insert, fixup_insert,
        second_rotate_left_eq, second_rotate_right_eq, second_blackenRoot_eq]
    | node c2 l2 a2 r2 =>
      cases c2 with
      | Red => exact (hy l2 a2 r2 rfl).elim
      | Black => simp [second.fixup_insert, fixup_insert,
          second_rotate_left_eq, second_rotate_right_eq,
          second_blackenRoot_eq]
  | case6 z f hfc gf rest2 hgd hfd hy =>
    obtain ⟨fd, fc, fa, fs⟩ := f
    obtain ⟨gd, gc, ga, gs⟩ := gf
    obtain rfl : fc = Color.Red := hfc
    obtain rfl : gd = Dir.L := hgd
    obtain rfl : fd = Dir.L := hfd
    cases gs with
    | nil => simp [second.fixup_insert, fixup_insert,
        second_rotate_left_eq, second_rotate_right_eq, second_blackenRoot_eq]
    | node c2 l2 a2 r2 =>
      cases c2 with
      | Red => exact (hy l2 a2 r2 rfl).elim
      | Black => simp [second.fixup_insert, fixup_insert,
          second_rotate_left_eq, second_rotate_right_eq,
          second_blackenRoot_eq]
  | case7 z f hfc gf rest2 hgd yl ya yr hy ih =>
    obtain ⟨fd, fc, fa, fs⟩ := f
    obtain ⟨gd, gc, ga, gs⟩ := gf
    obtain rfl : fc = Color.Red := hfc
    obtain rfl : gd = Dir.R := hgd
    obtain rfl : gs = Tree.node Color.Red yl ya yr := hy
    simpa [second.fixup_insert, fixup_insert] using ih
  | case8 z f hfc gf rest2 hgd hfd hy =>
    obtain ⟨fd, fc, fa, fs⟩ := f
    obtain ⟨gd, gc, ga, gs⟩ := gf
    obtain rfl : fc = Color.Red := hfc
    obtain rfl : gd = Dir.R := hgd
    obtain rfl : fd = Dir.L := hfd
    cases gs with
    | nil => simp [second.fixup_insert, fixup_insert,
        second_rotate_left_eq, second_rotate_right_eq, second_blackenRoot_eq]
    | node c2 l2 a2 r2 =>
      cases c2 with
      | Red => exact (hy l2 a2 r2 rfl).elim
      | Black => simp [second.fixup_insert, fixup_insert,
          second_rotate_left_eq, second_rotate_right_eq,
          second_blackenRoot_eq]
  | case9 z f hfc gf rest2 hgd hfd hy =>
    obtain ⟨fd, fc, fa, fs⟩ := f
    obtain ⟨gd, gc, ga, gs⟩ := gf
    obtain rfl : fc = Color.Red := hfc
    obtain rfl : gd = Dir.R := hgd
    obtain rfl : fd = Dir.R := hfd
    cases gs with
    | nil => simp [second.fixup_insert, fixup_insert,
        second_rotate_left_eq, second_rotate_right_eq, second_blackenRoot_eq]
    | node c2 l2 a2 r2 =>
      cases c2 with
      | Red => exact (hy l2 a2 r2 rfl).elim
      | Black => simp [second.fixup_insert, fixup_insert,
          second_rotate_left_eq, second_rotate_right_eq,
          second_blackenRoot_eq]

theorem second_chainInsert_eq (cmpE : α → α → Int) (t : ChainState α)
    (z : α) : second.chainInsert cmpE t z = chainInsert cmpE t z := by
  simp only [second.chainInsert, chainInsert, second_descend_eq,
    second_isNil_eq, second_fixup_eq]

theorem second_chainFind_eq (cmp : κ → α → Int) (t : ChainState α) (k : κ) :
    second.chainFind cmp t k = chainFind cmp t k := by
  simp only [second.chainFind, chainFind, second_findT_eq]

theorem second_contInsert_eq (cmp : κ → κ → Int) (s : ContState κ) (k : κ) :
    second.contInsert cmp s k = contInsert cmp s k := by
  simp only [second.contInsert, contInsert, second_descend_eq,
    second_isNil_eq, second_fixup_eq]

theorem second_contFind_eq (cmp : κ → κ → Int) (s : ContState κ) (k : κ) :
    second.contFind cmp s k = contFind cmp s k := by
  simp only [second.contFind, contFind, second_findT_eq]

/-- One client-visible operation on an owning container. -/
inductive ContOp (κ : Type) where
  | ins (k : κ) : ContOp κ
  | fnd (k : κ) : ContOp κ

/-- Run a call sequence against the first copy's container, collecting each
call's result (the returned payload for `insert`, the lookup result for
`find`). -/
def runCont (cmp : κ → κ → Int) :
    List (ContOp κ) → ContState κ → List (Option (Nat × κ))
  | [], _ => []
  | .ins k :: ops, s =>
    some (contInsert cmp s k).2 :: runCont cmp ops (contInsert cmp s k).1
  | .fnd k :: ops, s => contFind cmp s k :: runCont cmp ops s

/-- Run a call sequence against the second copy's container. -/
def runContSecond (cmp : κ → κ → Int) :
    List (ContOp κ) → ContState κ → List (Option (Nat × κ))
  | [], _ => []
  | .ins k :: ops, s =>
    some (second.contInsert cmp s k).2 ::
      runContSecond cmp ops (second.contInsert cmp s k).1
  | .fnd k :: ops, s =>
    second.contFind cmp s k :: runContSecond cmp ops s

/-- One client-visible operation on an intrusive chain. -/
inductive ChainOp (κ α : Type) where
  | ins (z : α) : ChainOp κ α
  | fnd (k : κ) : ChainOp κ α

/-- Run a call sequence against the first copy's chain. -/
def runChain (cmp : κ → α → Int) (cmpE : α → α → Int) :
    List (ChainOp κ α) → ChainState α → List (Option α)
  | [], _ => []
  | .ins z :: ops, t =>
    some (chainInsert cmpE t z).2 ::
      runChain cmp cmpE ops (chainInsert cmpE t z).1
  | .fnd k :: ops, t => chainFind cmp t k :: runChain cmp cmpE ops t

/-- Run a call sequence against the second copy's chain. -/
def runChainSecond (cmp : κ → α → Int) (cmpE : α → α → Int) :
    List (ChainOp κ α) → ChainState α → List (Option α)
  | [], _ => []
  | .ins z :: ops, t =>
    some (second.chainInsert cmpE t z).2 ::
      runChainSecond cmp cmpE ops (second.chainInsert cmpE t z).1
  | .fnd k :: ops, t =>
    second.chainFind cmp t k :: runChainSecond cmp cmpE ops t

/-- C10.  The two copies of the red-black tree utility in the source are
observationally equivalent: from any starting state, any sequence of
`insert` and `find` calls with the same comparators produces identical
results — found or not found, returned node or payload — and identical
states, for both the intrusive chain and the owning container. -/
theorem c10_versions_observationally_equal {κ α : Type}
    (cmp : κ → κ → Int) (cF : κ → α → Int) (cmpE : α → α → Int) :
    (∀ (ops : List (ContOp κ)) (s : ContState κ),
      runContSecond cmp ops s = runCont cmp ops s) ∧
    (∀ (ops : List (ChainOp κ α)) (t : ChainState α),
      runChainSecond cF cmpE ops t = runChain cF cmpE ops t) := by
  constructor
  · intro ops
    induction ops with
    | nil => intro s; rfl
    | cons op ops ih =>
      intro s
      cases op with
      | ins k =>
        simp [runCont, runContSecond, second_contInsert_eq, ih]
      | fnd k =>
        simp [runCont, runContSecond, second_contFind_eq, ih]
  · intro ops
    induction ops with
    | nil => intro t; rfl
    | cons op ops ih =>
      intro t
      cases op with
      | ins z =>
        simp [runChain, runChainSecond, second_chainInsert_eq, ih]
      | fnd k =>
        simp [runChain, runChainSecond, second_chainFind_eq, ih]

/-- A successful `find` returns a stored payload equal to the key. -/
theorem findT_some {g : α → Int} :
    ∀ {t : Tree α} {w : α}, findT g t = some w →
      w ∈ inorder t ∧ g w = 0 := by
  intro t
  induction t with
  | nil => intro w h; simp [findT] at h
  | node c l a r ihl ihr =>
    intro w h
    rw [findT] at h
    split at h
    · obtain ⟨hm, hz⟩ := ihl h
      exact ⟨by simp [inorder, hm], hz⟩
    · split at h
      · obtain ⟨hm, hz⟩ := ihr h
        exact ⟨by simp [inorder, hm], hz⟩
      · obtain rfl : a = w := by simpa using h
        exact ⟨by simp [inorder], by omega⟩

/-- Every payload of a container built by insertions carries either a key
already stored or one of the keys inserted. -/
theorem contInsertMany_keys {cmp : κ → κ → Int} (hl : CmpLaws cmp) :
    ∀ (ks : List κ) (s : ContState κ), GoodCont cmp s →
      ∀ w ∈ inorder (contInsertMany cmp s ks).root,
        w ∈ inorder s.root ∨ w.2 ∈ ks := by
  intro ks
  induction ks with
  | nil => intro s _ w hw; exact Or.inl hw
  | cons k ks ih =>
    intro s hg w hw
    have hg' : GoodCont cmp (contInsert cmp s k).1 := contInsert_good hl hg
    have hw' := ih (contInsert cmp s k).1 hg' w hw
    by_cases hp : ∃ v ∈ inorder s.root, cmp k v.2 = 0
    · obtain ⟨v, hv, heq⟩ := hp
      rw [contInsert_found hl hg hv heq] at hw'
      rcases hw' with h | h
      · exact Or.inl h
      · exact Or.inr (List.mem_cons_of_mem _ h)
    · push_neg at hp
      obtain ⟨_, _, _, _, hperm⟩ := contInsert_notfound hl hg hp
      rcases hw' with h | h
      · rcases List.mem_cons.mp (hperm.mem_iff.mp h) with h2 | h2
        · exact Or.inr (by rw [h2]; simp)
        · exact Or.inl h2
      · exact Or.inr (List.mem_cons_of_mem _ h)

theorem intCmp_eq_zero {a b : Int} : intCmp a b = 0 ↔ a = b := by
  simp only [intCmp]
  split_ifs <;> constructor <;> intro h <;> (try exact h.elim) <;> omega

theorem intCmp_neg {a b : Int} : intCmp a b < 0 ↔ a < b := by
  simp only [intCmp]
  split_ifs <;> constructor <;> intro h <;> (try exact h.elim) <;> omega

end rb_tree

/-! ## The sequence, scope and overload model of `impl.hxx`

Node identities (`node_id`) are C `int`s compared with `impl::compare`,
embedded as `Int` with `intCmp`.  The bodies of several member functions
declared in `impl.hxx` live in an implementation file that is not part of
the sources; each definition modelled from the spec says so in its comment.
Exceptions (`std::domain_error`, the OutOfRange condition of the design)
are embedded as `Except`. -/

namespace impl

open rb_tree

/-- The out-of-range condition a `Sequence` signals (`std::domain_error` in
the source, OutOfRange in the design's taxonomy). -/
inductive SeqError where
  | outOfRange : SeqError
deriving DecidableEq

/-- Embeds `val_sequence<T>::get` (impl.hxx): `p` outside `[0, size())`
throws; otherwise the iterator is advanced `p` steps from `begin()` and the
element returned.  The sequence is embedded by its element list. -/
def val_sequence_get (s : List τ) (p : Int) : Except SeqError τ :=
  if h : p < 0 ∨ (s.length : Int) ≤ p then .error .outOfRange
  else .ok (s.get ⟨p.toNat, by omega⟩)

/-- Embeds `empty_sequence<T>::get` (impl.hxx): every index throws. -/
def empty_sequence_get (_ : Int) : Except SeqError τ := .error .outOfRange

/-- Embeds `singleton_declset<T>` (impl.hxx): `size()` is 1, and `get`
returns the datum when `i == 1` and throws otherwise — in particular it
throws for `i == 0`, although the `Sequence` iteration protocol of
`interface.hxx` is 0-based (`begin()` is position 0, `end()` is
`size()`). -/
def singleton_declset_size : Int := 1

/-- The `get` of `singleton_declset<T>` as written in the source. -/
def singleton_declset_get (datum : δ) (i : Int) : Except SeqError δ :=
  if i = 1 then .ok datum else .error .outOfRange

/-- C4.  Sequence bounds contract.  `val_sequence` and `empty_sequence`
honor it: in-range `get` returns the element, out-of-range `get` signals
OutOfRange.  The fixed-size-one `singleton_declset` stand-in violates it:
its `get(0)` — in range for `size() == 1`, and the index the claim says
returns the sole declaration — throws, while `get(1)` — out of range —
returns the datum.  The comparison `i == 1` is an off-by-one slip against
the 0-based `Sequence` protocol of `interface.hxx`. -/
theorem c4_sequence_bounds (d : Nat) :
    (val_sequence_get ([10, 20, 30] : List Nat) 0 = .ok 10 ∧
     val_sequence_get ([10, 20, 30] : List Nat) 1 = .ok 20 ∧
     val_sequence_get ([10, 20, 30] : List Nat) 2 = .ok 30 ∧
     val_sequence_get ([10, 20, 30] : List Nat) 3 = .error .outOfRange ∧
     val_sequence_get ([10, 20, 30] : List Nat) (-1) = .error .outOfRange) ∧
    empty_sequence_get (τ := Nat) 0 = .error .outOfRange ∧
    (singleton_declset_size = 1 ∧
     singleton_declset_get d 0 = .error .outOfRange ∧
     singleton_declset_get d 1 = .ok d) := by
  refine ⟨⟨?_, ?_, ?_, ?_, ?_⟩, rfl, rfl, ?_, ?_⟩ <;>
    simp [val_sequence_get, singleton_declset_get]

/-- A declaration that can never be redeclared (parameter, base-subobject,
enumerator): its name's node id and its own node identity. -/
structure unique_decl where
  name : Int
  id : Nat
deriving DecidableEq

/-- The overload set a scope lookup returns for such declarations: either
the declaration's own `singleton_overload` or the shared
`empty_overload`. -/
inductive hOverload where
  | singleton_overload (d : unique_decl) : hOverload
  | empty_overload : hOverload
deriving DecidableEq

/-- Embeds `homogeneous_scope<Member>::operator[]` (impl.hxx): scan the
declarations in order, return the overload of the first whose name has the
subscripting name's node id, else the `missing` empty overload. -/
def homogeneous_scope_lookup (decls : List unique_decl) (n : Int) :
    hOverload :=
  match decls with
  | [] => .empty_overload
  | d :: ds =>
    if d.name = n then .singleton_overload d
    else homogeneous_scope_lookup ds n

/-- Modelled from the spec: `empty_overload::size` (its body is in the
implementation file missing from the sources) — the shared, stateless
Overload of an undeclared name reports size zero. -/
def empty_overload_size : Int := 0

/-- Modelled from the spec: `empty_overload::get` (body in the missing
implementation file) — indexing the empty overload signals OutOfRange; it
neither dereferences null nor returns a sentinel declaration. -/
def empty_overload_get (_ : Int) : Except SeqError unique_decl :=
  .error .outOfRange

/-- Result of a heterogeneous `Scope::operator[]`: the Overload payload
found in the name-keyed owning tree, or the shared empty overload. -/
inductive name_lookup where
  | found (o : Nat × Int) : name_lookup
  | empty_overload : name_lookup
deriving DecidableEq

/-- Modelled from the spec: `Scope::operator[](name)` (body in the missing
implementation file) looks the name up in the scope's name-keyed owning
tree of Overloads — the source's `container<T>::find` with the node-id
comparator — and returns the shared empty overload when the name is
absent.  Overload payloads are embedded by the container's `(allocation
id, name node id)` pairs. -/
def scope_lookup (s : ContState Int) (n : Int) : name_lookup :=
  match contFind intCmp s n with
  | some o => .found o
  | none => .empty_overload

/-- C7.  Totality of name lookup: against a scope whose overload tree was
built by inserting any list of declared names, looking up a name that was
not declared returns the zero-size empty Overload, and indexing that
Overload at position 0 raises OutOfRange; likewise the homogeneous scope's
linear lookup returns the empty overload for an undeclared name.  Lookup
never fails: it is a total function into Overload results. -/
theorem c7_lookup_totality (names : List Int) (n : Int) (hn : n ∉ names)
    (decls : List unique_decl) (hd : ∀ d ∈ decls, d.name ≠ n) :
    scope_lookup (contInsertMany intCmp contEmpty names) n
      = .empty_overload ∧
    empty_overload_size = 0 ∧
    empty_overload_get 0 = .error .outOfRange ∧
    homogeneous_scope_lookup decls n = .empty_overload := by
  refine ⟨?_, rfl, rfl, ?_⟩
  · rw [scope_lookup]
    cases hf : contFind intCmp (contInsertMany intCmp contEmpty names) n with
    | none => rfl
    | some o =>
      obtain ⟨hmem, hzero⟩ := findT_some hf
      have hkey : o.2 = n := by
        have := intCmp_eq_zero.mp hzero
        omega
      have hsrc := contInsertMany_keys intCmp_laws names contEmpty
        goodTree_nil o hmem
      rcases hsrc with h | h
      · simp [contEmpty, inorder] at h
      · rw [hkey] at h
        exact absurd h hn
  · induction decls with
    | nil => rfl
    | cons d ds ih =>
      rw [homogeneous_scope_lookup, if_neg (hd d (by simp))]
      exact ih fun e he => hd e (List.mem_cons_of_mem _ he)

theorem c7_lookup_totality_witness :
    ((3 : Int) ∉ ([1, 2] : List Int) ∧
      (∀ d ∈ ([⟨1, 10⟩] : List unique_decl), d.name ≠ 3)) ∧
    (scope_lookup (contInsertMany intCmp contEmpty [1, 2]) 3
        = .empty_overload ∧
      empty_overload_size = 0 ∧
      empty_overload_get 0 = .error .outOfRange ∧
      homogeneous_scope_lookup [⟨1, 10⟩] 3 = .empty_overload) :=
  ⟨⟨by decide, by decide⟩,
    c7_lookup_totality [1, 2] 3 (by decide) [⟨1, 10⟩] (by decide)⟩

/-- One entry of an overload set: the type's node id and the append-only
decl-set of declaration identities; the master declaration is the first.
Modelled from `overload_entry`/`master_decl_data` (impl.hxx) and the
declaration state machine of the spec. -/
structure overload_entry where
  type : Int
  declset : List Nat
deriving DecidableEq

/-- An overload set: its entries, one per distinct type, in creation
order. -/
structure Overload where
  entries : List overload_entry
deriving DecidableEq

/-- Modelled from the spec: `Overload::lookup(type)` (body in the missing
implementation file) retrieves the entry whose type key equals the given
type; the source keys entries by type in an embedded tree, the model
scans. -/
def Overload.lookupType (o : Overload) (t : Int) : Option overload_entry :=
  o.entries.find? (fun e => e.type == t)

/-- Declaration state of one scope: overload sets by name, plus the
identity counter for freshly created declaration nodes. -/
structure ScopeModel where
  ovls : List (Int × Overload)
  nextDecl : Nat
deriving DecidableEq

/-- An empty scope. -/
def scopeEmpty : ScopeModel := ⟨[], 0⟩

/-- Modelled from the spec (§4.4 state machine; `Scope::add_member` and
`Overload::push_back` bodies are in the missing implementation file),
using the pieces present in impl.hxx: `decl_factory::declare` creates a
fresh `master_decl_data` with decl-set `{self}` and pushes the entry onto
the overload set; `decl_factory::redeclare` plus the `decl_rep` constructor
append the new declaration to the existing master's decl-set without a new
master or tree entry.  The scope finds or creates the Overload by name
first. -/
def declare (s : ScopeModel) (n t : Int) : ScopeModel × Nat :=
  let d := s.nextDecl
  match s.ovls.find? (fun p => p.1 == n) with
  | none =>
    ({ ovls := s.ovls ++ [(n, ⟨[⟨t, [d]⟩]⟩)], nextDecl := d + 1 }, d)
  | some (_, o) =>
    match o.lookupType t with
    | none =>
      ({ ovls := s.ovls.map (fun p =>
           if p.1 == n then (p.1, ⟨p.2.entries ++ [⟨t, [d]⟩]⟩) else p),
         nextDecl := d + 1 }, d)
    | some _ =>
      ({ ovls := s.ovls.map (fun p =>
           if p.1 == n then
             (p.1, ⟨p.2.entries.map (fun e =>
               if e.type == t then ⟨e.type, e.declset ++ [d]⟩ else e)⟩)
           else p),
         nextDecl := d + 1 }, d)

/-- The overload set registered under a name, if any. -/
def getOvl (s : ScopeModel) (n : Int) : Option Overload :=
  (s.ovls.find? (fun p => p.1 == n)).map (fun p => p.2)

/-- The result of `Overload::size()` seen through the scope: the number of entries
(master declarations) under the name. -/
def scope_ovl_size (s : ScopeModel) (n : Int) : Int :=
  match getOvl s n with
  | some o => o.entries.length
  | none => 0

/-- The result of `Overload::operator[](type)` seen through the scope: the decl-set for
that type, or the empty sequence. -/
def scope_declset (s : ScopeModel) (n t : Int) : List Nat :=
  match getOvl s n with
  | some o =>
    match o.lookupType t with
    | some e => e.declset
    | none => []
  | none => []

/-- The master of a decl-set (`Decl::master()`): its first declaration. -/
def scope_master (s : ScopeModel) (n t : Int) : Option Nat :=
  (scope_declset s n t).head?

/-- C8.  Overload/decl-set partitioning: declaring a name with type `t1`
then again with `t1` yields one overload entry whose decl-set holds both
declarations in order, sharing the first as master; then declaring the same
name with a distinct type `t2` yields two overload entries, and the
decl-sets under `t1` and `t2` are non-empty and disjoint. -/
theorem c8_overload_partitioning (n t1 t2 : Int) (hne : t1 ≠ t2) :
    scope_ovl_size (declare (declare scopeEmpty n t1).1 n t1).1 n = 1 ∧
    scope_declset (declare (declare scopeEmpty n t1).1 n t1).1 n t1
      = [(declare scopeEmpty n t1).2,
         (declare (declare scopeEmpty n t1).1 n t1).2] ∧
    (declare scopeEmpty n t1).2
      ≠ (declare (declare scopeEmpty n t1).1 n t1).2 ∧
    scope_master (declare (declare scopeEmpty n t1).1 n t1).1 n t1
      = some (declare scopeEmpty n t1).2 ∧
    scope_ovl_size
      (declare (declare (declare scopeEmpty n t1).1 n t1).1 n t2).1 n = 2 ∧
    scope_declset
      (declare (declare (declare scopeEmpty n t1).1 n t1).1 n t2).1 n t1
      = [(declare scopeEmpty n t1).2,
         (declare (declare scopeEmpty n t1).1 n t1).2] ∧
    scope_declset
      (declare (declare (declare scopeEmpty n t1).1 n t1).1 n t2).1 n t2
      = [(declare (declare (declare scopeEmpty n t1).1 n t1).1 n t2).2] ∧
    List.Disjoint
      (scope_declset
        (declare (declare (declare scopeEmpty n t1).1 n t1).1 n t2).1 n t1)
      (scope_declset
        (declare (declare (declare scopeEmpty n t1).1 n t1).1 n t2).1 n t2)
      ∧
    scope_declset
      (declare (declare (declare scopeEmpty n t1).1 n t1).1 n t2).1 n t1
      ≠ [] ∧
    scope_declset
      (declare (declare (declare scopeEmpty n t1).1 n t1).1 n t2).1 n t2
      ≠ [] := by
  have h1 : declare scopeEmpty n t1 = (⟨[(n, ⟨[⟨t1, [0]⟩]⟩)], 1⟩, 0) := rfl
  have h2 : declare (⟨[(n, ⟨[⟨t1, [0]⟩]⟩)], 1⟩ : ScopeModel) n t1
      = (⟨[(n, ⟨[⟨t1, [0, 1]⟩]⟩)], 2⟩, 1) := by
    simp [declare, Overload.lookupType, List.find?]
  have hbeq : (t1 == t2) = false := by
    simpa using hne
  have h3 : declare (⟨[(n, ⟨[⟨t1, [0, 1]⟩]⟩)], 2⟩ : ScopeModel) n t2
      = (⟨[(n, ⟨[⟨t1, [0, 1]⟩, ⟨t2, [2]⟩]⟩)], 3⟩, 2) := by
    simp [declare, Overload.lookupType, List.find?, hbeq]
  rw [h1]
  simp only [h2, h3]
  refine ⟨?_, ?_, by decide, ?_, ?_, ?_, ?_, ?_, ?_, ?_⟩ <;>
    simp [scope_ovl_size, scope_declset, scope_master, getOvl,
      Overload.lookupType, List.find?, hbeq, List.Disjoint]

theorem c8_overload_partitioning_witness :
    ((7 : Int) ≠ 9) ∧
    (scope_ovl_size (declare (declare scopeEmpty 4 7).1 4 7).1 4 = 1 ∧
    scope_declset (declare (declare scopeEmpty 4 7).1 4 7).1 4 7
      = [(declare scopeEmpty 4 7).2,
         (declare (declare scopeEmpty 4 7).1 4 7).2] ∧
    (declare scopeEmpty 4 7).2
      ≠ (declare (declare scopeEmpty 4 7).1 4 7).2 ∧
    scope_master (declare (declare scopeEmpty 4 7).1 4 7).1 4 7
      = some (declare scopeEmpty 4 7).2 ∧
    scope_ovl_size
      (declare (declare (declare scopeEmpty 4 7).1 4 7).1 4 9).1 4 = 2 ∧
    scope_declset
      (declare (declare (declare scopeEmpty 4 7).1 4 7).1 4 9).1 4 7
      = [(declare scopeEmpty 4 7).2,
         (declare (declare scopeEmpty 4 7).1 4 7).2] ∧
    scope_declset
      (declare (declare (declare scopeEmpty 4 7).1 4 7).1 4 9).1 4 9
      = [(declare (declare (declare scopeEmpty 4 7).1 4 7).1 4 9).2] ∧
    List.Disjoint
      (scope_declset
        (declare (declare (declare scopeEmpty 4 7).1 4 7).1 4 9).1 4 7)
      (scope_declset
        (declare (declare (declare scopeEmpty 4 7).1 4 7).1 4 9).1 4 9)
      ∧
    scope_declset
      (declare (declare (declare scopeEmpty 4 7).1 4 7).1 4 9).1 4 7
      ≠ [] ∧
    scope_declset
      (declare (declare (declare scopeEmpty 4 7).1 4 7).1 4 9).1 4 9
      ≠ []) :=
  ⟨by decide, c8_overload_partitioning 4 7 9 (by decide)⟩

/-- Per-declaration bookkeeping `scope_datum` (impl.hxx): the scope
position assigned at declaration time and the declaration it backs
(embedded by that declaration's node identity). -/
structure scope_datum where
  scope_pos : Int
  decl : Nat
deriving DecidableEq

/-- Modelled from the spec: `scope_datum::comp` (body in the missing
implementation file) — the comparator ordering declarations "by position
inside a Decl-Sequence tree" (impl.hxx comment), via the integer compare of
the node model. -/
def scope_datum_comp (a b : scope_datum) : Int :=
  intCmp a.scope_pos b.scope_pos

theorem scope_datum_comp_laws : CmpLaws scope_datum_comp :=
  ⟨fun x y => intCmp_laws.flip x.scope_pos y.scope_pos,
   fun x y z => intCmp_laws.letrans x.scope_pos y.scope_pos z.scope_pos⟩

/-- Modelled from the spec: `decl_sequence::insert` (body in the missing
implementation file) chains the datum into the position-keyed red-black
tree — the source's `chain<Node>::insert` with the position comparator. -/
def decl_sequence_insert (s : ChainState scope_datum) (d : scope_datum) :
    ChainState scope_datum :=
  (chainInsert scope_datum_comp s d).1

/-- Register a list of declarations, in registration order. -/
def decl_sequence_register (ds : List scope_datum) :
    ChainState scope_datum :=
  ds.foldl decl_sequence_insert chainEmpty

/-- Modelled from the spec: `decl_sequence::get(i)` (body in the missing
implementation file) retrieves the i-th declaration in increasing position
order — the i-th node of the in-order traversal of the position-keyed
chain. -/
def decl_sequence_get (s : ChainState scope_datum) (i : Nat) :
    Option scope_datum :=
  (inorder s.root).get? i

/-- C9.  Position ordering of the decl-sequence: registering declarations
with pairwise-distinct scope positions in any order, the sequence holds
exactly the registered declarations, lists them in strictly increasing
position order, and `get(i)` reads the i-th of that order — so retrieval is
by position, regardless of registration order. -/
theorem c9_position_ordering (ds : List scope_datum)
    (hdist : List.Pairwise (fun a b => a.scope_pos ≠ b.scope_pos) ds) :
    (inorder (decl_sequence_register ds).root).Perm ds ∧
    List.Pairwise (fun a b => a.scope_pos < b.scope_pos)
      (inorder (decl_sequence_register ds).root) ∧
    (∀ i, decl_sequence_get (decl_sequence_register ds) i
      = (inorder (decl_sequence_register ds).root).get? i) := by
  have hreg : decl_sequence_register ds
      = chainInsertMany scope_datum_comp chainEmpty ds := rfl
  have hgood : GoodChain scope_datum_comp
      (chainInsertMany scope_datum_comp chainEmpty ds) :=
    chainInsertMany_good scope_datum_comp_laws ds _ goodTree_nil
  have hdist' : List.Pairwise (fun a b => scope_datum_comp a b ≠ 0) ds := by
    refine hdist.imp ?_
    intro a b hab h0
    exact hab (intCmp_eq_zero.mp h0)
  have hperm := chainInsertMany_elems scope_datum_comp_laws ds chainEmpty
    goodTree_nil (by intro w hw; simp [chainEmpty, inorder] at hw) hdist'
  refine ⟨?_, ?_, fun i => rfl⟩
  · rw [hreg]
    simpa [chainEmpty, inorder] using hperm
  · rw [hreg]
    refine (bst_pairwise scope_datum_comp_laws hgood.2.2).imp ?_
    intro a b hab
    exact intCmp_neg.mp hab

theorem c9_position_ordering_witness :
    List.Pairwise (fun a b => a.scope_pos ≠ b.scope_pos)
      ([⟨5, 100⟩, ⟨2, 101⟩, ⟨8, 102⟩] : List scope_datum) ∧
    ((inorder (decl_sequence_register
        [⟨5, 100⟩, ⟨2, 101⟩, ⟨8, 102⟩]).root).Perm
      [⟨5, 100⟩, ⟨2, 101⟩, ⟨8, 102⟩] ∧
    List.Pairwise (fun a b => a.scope_pos < b.scope_pos)
      (inorder (decl_sequence_register
        [⟨5, 100⟩, ⟨2, 101⟩, ⟨8, 102⟩]).root) ∧
    (∀ i, decl_sequence_get (decl_sequence_register
        [⟨5, 100⟩, ⟨2, 101⟩, ⟨8, 102⟩]) i
      = (inorder (decl_sequence_register
          [⟨5, 100⟩, ⟨2, 101⟩, ⟨8, 102⟩]).root).get? i)) :=
  ⟨by decide,
    c9_position_ordering [⟨5, 100⟩, ⟨2, 101⟩, ⟨8, 102⟩] (by decide)⟩

/-- The claim's concrete scenario, read off the model: registering
positions 5, 2, 8 in that order, `get(0)`, `get(1)`, `get(2)` return the
declarations at positions 2, 5, 8 respectively. -/
theorem decl_sequence_example :
    decl_sequence_get (decl_sequence_register
        [⟨5, 100⟩, ⟨2, 101⟩, ⟨8, 102⟩]) 0 = some ⟨2, 101⟩ ∧
    decl_sequence_get (decl_sequence_register
        [⟨5, 100⟩, ⟨2, 101⟩, ⟨8, 102⟩]) 1 = some ⟨5, 100⟩ ∧
    decl_sequence_get (decl_sequence_register
        [⟨5, 100⟩, ⟨2, 101⟩, ⟨8, 102⟩]) 2 = some ⟨8, 102⟩ := by
  decide

end impl
